import Mathlib

/-!
Verification of the Allotment-System repository (DNM / LLM / PG-Medical /
B.Pharm-LE seat-allotment scripts) against its natural-language
specification.

The Python sources are shallowly embedded: Python strings become `List Char`,
Python dicts become association lists (or total functions where the source
never iterates or tests membership on the dict), and every stateful pass
becomes an explicit fold or a fuel-indexed recursion over a state record.
All machine integers in the source are plain Python ints, so they are
modelled by `Int` with no overflow.
-/

/-- Python strings, modelled as lists of characters. -/
abbrev Str := List Char

/-- Python `str.upper` on one character, restricted to its ASCII action
(the repository only ever manipulates ASCII codes); code points are
compared through `Char.toNat`. -/
def pyUpperChar (c : Char) : Char :=
  if 97 ≤ c.toNat ∧ c.toNat ≤ 122 then Char.ofNat (c.toNat - 32) else c

/-- Python `str.upper`. -/
def pyUpper (s : Str) : Str := s.map pyUpperChar

/-- The whitespace characters removed by Python `str.strip`
(space, tab, newline, carriage return, vertical tab, form feed). -/
def isPySpace (c : Char) : Bool :=
  c.toNat = 32 || c.toNat = 9 || c.toNat = 10 || c.toNat = 13 ||
    c.toNat = 11 || c.toNat = 12

/-- Python `str.strip`. -/
def pyStrip (s : Str) : Str :=
  ((s.dropWhile isPySpace).reverse.dropWhile isPySpace).reverse

/-- The pervasive normalisation `str(x).upper().strip()`. -/
def pyNorm (s : Str) : Str := pyStrip (pyUpper s)

/-- The variant `str(x).strip().upper()` used by `is_candidate_eligible`
in dnm.py. -/
def pyNormSU (s : Str) : Str := pyUpper (pyStrip s)

/-- Characters of well-formed seat-selector codes: upper-case letters and
digits.  These are exactly the characters the repository's fixed-width
codes are built from. -/
def validChar (c : Char) : Bool :=
  (65 ≤ c.toNat && c.toNat ≤ 90) || (48 ≤ c.toNat && c.toNat ≤ 57)

theorem pyUpperChar_valid {c : Char} (h : validChar c = true) :
    pyUpperChar c = c := by
  simp only [validChar, Bool.or_eq_true, Bool.and_eq_true,
    decide_eq_true_eq] at h
  unfold pyUpperChar
  rw [if_neg]
  intro ⟨h1, h2⟩
  omega

theorem isPySpace_valid {c : Char} (h : validChar c = true) :
    isPySpace c = false := by
  simp only [validChar, Bool.or_eq_true, Bool.and_eq_true,
    decide_eq_true_eq] at h
  simp only [isPySpace, Bool.or_eq_false_iff, decide_eq_false_iff_not]
  omega

theorem pyUpper_valid {s : Str} (h : s.all validChar = true) :
    pyUpper s = s := by
  induction s with
  | nil => rfl
  | cons a l ih =>
    simp only [List.all_cons, Bool.and_eq_true] at h
    simp only [pyUpper, List.map_cons, pyUpperChar_valid h.1, List.cons.injEq,
      true_and]
    exact ih h.2

theorem dropWhile_valid {s : Str} (h : s.all validChar = true) :
    s.dropWhile isPySpace = s := by
  cases s with
  | nil => rfl
  | cons a l =>
    simp only [List.all_cons, Bool.and_eq_true] at h
    simp [List.dropWhile, isPySpace_valid h.1]

theorem pyStrip_valid {s : Str} (h : s.all validChar = true) :
    pyStrip s = s := by
  have h2 : s.reverse.all validChar = true := by
    simp only [List.all_eq_true] at h ⊢
    intro c hc
    exact h c (List.mem_reverse.mp hc)
  simp [pyStrip, dropWhile_valid h, dropWhile_valid h2]

theorem pyNorm_valid {s : Str} (h : s.all validChar = true) :
    pyNorm s = s := by
  simp [pyNorm, pyUpper_valid h, pyStrip_valid h]

/-! ## Association-list model of Python dicts

The source keeps seat ledgers in Python dicts.  A dict is modelled as an
association list in insertion order; `dset` updates the first binding in
place (as CPython does), `dgetD` is `d.get(k, v0)`, `dmem` is `k in d`,
and `dgetIns` is `defaultdict` item access, which inserts the default at
the end of the dict on a miss. -/

/-- Python `d.get(k, v0)`. -/
def dgetD {K V : Type} [DecidableEq K] (d : List (K × V)) (k : K) (v0 : V) : V :=
  match d.find? (fun p => p.1 = k) with
  | some p => p.2
  | none => v0

/-- Python `k in d`. -/
def dmem {K V : Type} [DecidableEq K] (d : List (K × V)) (k : K) : Bool :=
  d.any (fun p => p.1 = k)

/-- Python `d[k] = v`. -/
def dset {K V : Type} [DecidableEq K] (d : List (K × V)) (k : K) (v : V) :
    List (K × V) :=
  match d with
  | [] => [(k, v)]
  | p :: rest => if p.1 = k then (k, v) :: rest else p :: dset rest k v

/-- `defaultdict` item access `d[k]` with default `v0`: returns the stored
value and the (possibly extended) dict. -/
def dgetIns {K V : Type} [DecidableEq K] (d : List (K × V)) (k : K) (v0 : V) :
    V × List (K × V) :=
  match d.find? (fun p => p.1 = k) with
  | some p => (p.2, d)
  | none => (v0, d ++ [(k, v0)])

theorem dgetD_dset_self {K V : Type} [DecidableEq K]
    (d : List (K × V)) (k : K) (v v0 : V) :
    dgetD (dset d k v) k v0 = v := by
  induction d with
  | nil => simp [dset, dgetD, List.find?]
  | cons p rest ih =>
    by_cases h : p.1 = k
    · simp [dset, h, dgetD, List.find?]
    · simp only [dset, if_neg h]
      simp only [dgetD, List.find?] at ih ⊢
      rw [decide_eq_false h]
      exact ih

theorem dgetD_dset_ne {K V : Type} [DecidableEq K]
    (d : List (K × V)) (k k' : K) (v v0 : V) (hne : k' ≠ k) :
    dgetD (dset d k v) k' v0 = dgetD d k' v0 := by
  induction d with
  | nil => simp [dset, dgetD, List.find?, decide_eq_false (Ne.symm hne)]
  | cons p rest ih =>
    by_cases h : p.1 = k
    · simp [dset, h, dgetD, List.find?, decide_eq_false (Ne.symm hne),
        decide_eq_false (h ▸ Ne.symm hne : p.1 ≠ k')]
    · simp only [dset, if_neg h]
      by_cases h2 : p.1 = k'
      · simp [dgetD, List.find?, h2]
      · simp only [dgetD, List.find?, decide_eq_false h2] at ih ⊢
        exact ih

/-- Every value of a dict after `dset` satisfies `P` if all old values and
the new value do. -/
theorem dset_valuesP {K V : Type} [DecidableEq K] (P : V → Prop)
    (d : List (K × V)) (k : K) (v : V)
    (hd : ∀ p ∈ d, P p.2) (hv : P v) :
    ∀ p ∈ dset d k v, P p.2 := by
  induction d with
  | nil => simpa [dset]
  | cons q rest ih =>
    by_cases h : q.1 = k
    · simp only [dset, if_pos h]
      intro p hp
      rcases List.mem_cons.mp hp with rfl | hp
      · exact hv
      · exact hd p (List.mem_cons_of_mem _ hp)
    · simp only [dset, if_neg h]
      intro p hp
      rcases List.mem_cons.mp hp with rfl | hp
      · exact hd p (List.mem_cons_self _ _)
      · exact ih (fun q hq => hd q (List.mem_cons_of_mem _ hq)) p hp

theorem dgetIns_valuesP {K V : Type} [DecidableEq K] (P : V → Prop)
    (d : List (K × V)) (k : K) (v0 : V)
    (hd : ∀ p ∈ d, P p.2) (hv : P v0) :
    P (dgetIns d k v0).1 ∧ ∀ p ∈ (dgetIns d k v0).2, P p.2 := by
  unfold dgetIns
  cases hf : d.find? (fun p => p.1 = k) with
  | some p =>
    refine ⟨hd p (List.mem_of_find?_eq_some hf), hd⟩
  | none =>
    refine ⟨hv, ?_⟩
    intro p hp
    rcases List.mem_append.mp hp with hp | hp
    · exact hd p hp
    · rcases List.mem_singleton.mp hp with rfl
      exact hv

/-- Keys of a dict. -/
def dkeys {K V : Type} (d : List (K × V)) : List K := d.map (fun p => p.1)

theorem dkeys_dset {K V : Type} [DecidableEq K]
    (d : List (K × V)) (k : K) (v : V) (hk : dmem d k = true) :
    dkeys (dset d k v) = dkeys d := by
  induction d with
  | nil => simp [dmem] at hk
  | cons p rest ih =>
    by_cases h : p.1 = k
    · simp [dset, h, dkeys]
    · simp only [dmem, List.any_cons, Bool.or_eq_true, decide_eq_true_eq] at hk
      rcases hk with hk | hk
      · exact absurd hk h
      · have h2 := ih hk
        simp only [dkeys] at h2
        simp only [dset, if_neg h, dkeys, List.map_cons, h2]

theorem dnodup_dset {K V : Type} [DecidableEq K]
    (d : List (K × V)) (k : K) (v : V) (hd : (dkeys d).Nodup) :
    (dkeys (dset d k v)).Nodup := by
  induction d with
  | nil => simp [dset, dkeys]
  | cons p rest ih =>
    by_cases h : p.1 = k
    · simpa [dset, h, dkeys] using hd
    · simp only [dkeys, List.map_cons, List.nodup_cons] at hd
      simp only [dset, if_neg h, dkeys, List.map_cons, List.nodup_cons]
      constructor
      · intro hmem
        by_cases hk : dmem rest k
        · have h3 := dkeys_dset rest k v hk
          simp only [dkeys] at h3
          rw [h3] at hmem
          exact hd.1 hmem
        · have h3 : dkeys (dset rest k v) = dkeys rest ++ [k] := by
            clear ih hd hmem
            induction rest with
            | nil => simp [dset, dkeys]
            | cons q rs ih2 =>
              simp only [dmem, List.any_cons, Bool.or_eq_true,
                decide_eq_true_eq, not_or] at hk
              have h4 := ih2 (by simp [dmem, hk.2])
              simp only [dkeys] at h4
              simp only [dset, if_neg hk.1, dkeys, List.map_cons,
                List.cons_append, h4]
          simp only [dkeys] at h3
          rw [h3] at hmem
          rcases List.mem_append.mp hmem with hm | hm
          · exact hd.1 hm
          · exact h (List.mem_singleton.mp hm)
      · exact ih hd.2

/-- In a dict with distinct keys, `get` on a present binding returns its
value. -/
theorem dgetD_of_mem {K V : Type} [DecidableEq K]
    (d : List (K × V)) (k : K) (v v0 : V)
    (hnd : (dkeys d).Nodup) (hmem : (k, v) ∈ d) :
    dgetD d k v0 = v := by
  induction d with
  | nil => simp at hmem
  | cons p rest ih =>
    simp only [dkeys, List.map_cons, List.nodup_cons] at hnd
    rcases List.mem_cons.mp hmem with rfl | hmem
    · simp [dgetD, List.find?]
    · have hne : p.1 ≠ k := by
        intro he
        exact hnd.1 (he ▸ List.mem_map_of_mem (fun q => q.1) hmem)
      simp only [dgetD, List.find?, decide_eq_false hne] at ih ⊢
      exact ih hnd.2 hmem

/-! ## OptionCodec — llm_allotment.py and pgm.py

`decode_opt` slices a fixed-width option code into its fields after
normalising; `make_allot_code` concatenates the fields with the category
repeated twice.  llm_allotment.py accepts any code of length at least 7;
pgm.py demands length exactly 8. -/

/-- Decoded seat selector of llm_allotment.py (`grp`, `typ`, `course`,
`college`). -/
structure LSel where
  grp : Str
  typ : Str
  course : Str
  college : Str
deriving DecidableEq, Repr

/-- llm_allotment.py `decode_opt`. -/
def llmDecodeOpt (opt : Str) : Option LSel :=
  let o := pyNorm opt
  if o.length < 7 then none
  else some ⟨o.take 1, (o.drop 1).take 1, (o.drop 2).take 2, (o.drop 4).take 3⟩

/-- llm_allotment.py `make_allot_code`; note the category is used verbatim
(`cat[:2]`, no normalisation). -/
def llmMakeAllotCode (g t c col cat : Str) : Str :=
  let c2 := cat.take 2
  g ++ t ++ c ++ col ++ c2 ++ c2

/-- Decoded selector of pgm.py (`prog`, `typ`, `course`, `college`,
`flag`). -/
structure PSel where
  prog : Str
  typ : Str
  course : Str
  college : Str
  flag : Str
deriving DecidableEq, Repr

/-- pgm.py `decode_opt`: accepts only codes of length exactly 8. -/
def pgmDecodeOpt (opt : Str) : Option PSel :=
  let o := pyNorm opt
  if o.length = 8 then
    some ⟨o.take 1, (o.drop 1).take 1, (o.drop 2).take 2, (o.drop 4).take 3,
      (o.drop 7).take 1⟩
  else none

/-- pgm.py `make_allot_code`: `cat2 = category[:2].upper()`, emitted twice
after the four selector fields. -/
def pgmMakeAllotCode (prog typ course college category : Str) : Str :=
  let cat2 := pyUpper (category.take 2)
  prog ++ typ ++ course ++ college ++ cat2 ++ cat2

/-- Round trip of the llm_allotment.py codec: decoding an allot code built
from a well-formed selector recovers the selector's four fields, for any
category code made of valid characters. -/
theorem llm_decode_make_eq (g t c col cat : Str)
    (hg : g.length = 1) (ht : t.length = 1) (hc : c.length = 2)
    (hcol : col.length = 3)
    (hvg : g.all validChar = true) (hvt : t.all validChar = true)
    (hvc : c.all validChar = true) (hvcol : col.all validChar = true)
    (hvcat : cat.all validChar = true) :
    llmDecodeOpt (llmMakeAllotCode g t c col cat) = some ⟨g, t, c, col⟩ := by
  have hvc2 : (cat.take 2).all validChar = true := by
    simp only [List.all_eq_true] at hvcat ⊢
    exact fun x hx => hvcat x (List.take_subset 2 cat hx)
  have hvall : (llmMakeAllotCode g t c col cat).all validChar = true := by
    simp only [llmMakeAllotCode, List.all_append, Bool.and_eq_true]
    exact ⟨⟨⟨⟨⟨hvg, hvt⟩, hvc⟩, hvcol⟩, hvc2⟩, hvc2⟩
  have hnorm := pyNorm_valid hvall
  have hlen : (llmMakeAllotCode g t c col cat).length =
      7 + 2 * (cat.take 2).length := by
    simp [llmMakeAllotCode, hg, ht, hc, hcol]
    ring
  have e1 : (llmMakeAllotCode g t c col cat).take 1 = g := by
    have : llmMakeAllotCode g t c col cat =
        g ++ (t ++ (c ++ (col ++ (cat.take 2 ++ cat.take 2)))) := by
      simp [llmMakeAllotCode]
    rw [this]
    exact List.take_left' hg
  have e2 : ((llmMakeAllotCode g t c col cat).drop 1).take 1 = t := by
    have : llmMakeAllotCode g t c col cat =
        g ++ (t ++ (c ++ (col ++ (cat.take 2 ++ cat.take 2)))) := by
      simp [llmMakeAllotCode]
    rw [this, List.drop_left' hg]
    exact List.take_left' ht
  have e3 : ((llmMakeAllotCode g t c col cat).drop 2).take 2 = c := by
    have : llmMakeAllotCode g t c col cat =
        (g ++ t) ++ (c ++ (col ++ (cat.take 2 ++ cat.take 2))) := by
      simp [llmMakeAllotCode]
    rw [this, List.drop_left' (by simp [hg, ht])]
    exact List.take_left' hc
  have e4 : ((llmMakeAllotCode g t c col cat).drop 4).take 3 = col := by
    have : llmMakeAllotCode g t c col cat =
        ((g ++ t) ++ c) ++ (col ++ (cat.take 2 ++ cat.take 2)) := by
      simp [llmMakeAllotCode]
    rw [this, List.drop_left' (by simp [hg, ht, hc])]
    exact List.take_left' hcol
  unfold llmDecodeOpt
  simp only [hnorm]
  rw [if_neg (by omega)]
  rw [e1, e2, e3, e4]

/-- The pgm.py codec never round-trips: `make_allot_code` emits 7, 9 or 11
characters (7 plus the doubled category of at most 2 characters) while
`decode_opt` accepts only codes of length exactly 8, so decoding an
encoded allot code always returns `none`. -/
theorem pgm_decode_make_none (p t c col cat : Str)
    (hp : p.length = 1) (ht : t.length = 1) (hc : c.length = 2)
    (hcol : col.length = 3)
    (hvp : p.all validChar = true) (hvt : t.all validChar = true)
    (hvc : c.all validChar = true) (hvcol : col.all validChar = true)
    (hvcat : cat.all validChar = true) :
    pgmDecodeOpt (pgmMakeAllotCode p t c col cat) = none := by
  have hvc2 : (cat.take 2).all validChar = true := by
    simp only [List.all_eq_true] at hvcat ⊢
    exact fun x hx => hvcat x (List.take_subset 2 cat hx)
  have hup : pyUpper (cat.take 2) = cat.take 2 := pyUpper_valid hvc2
  have hvall : (pgmMakeAllotCode p t c col cat).all validChar = true := by
    simp only [pgmMakeAllotCode, hup, List.all_append, Bool.and_eq_true]
    exact ⟨⟨⟨⟨⟨hvp, hvt⟩, hvc⟩, hvcol⟩, hvc2⟩, hvc2⟩
  have hnorm := pyNorm_valid hvall
  have hlen : (pgmMakeAllotCode p t c col cat).length =
      7 + 2 * (cat.take 2).length := by
    simp [pgmMakeAllotCode, hup, hp, ht, hc, hcol]
    ring
  unfold pgmDecodeOpt
  simp only [hnorm]
  rw [if_neg (by omega)]

/-- C3, counterexample: on the pgm.py codec the round trip fails at a
concrete well-formed selector — decoding the encoded allot code yields
`none` instead of the selector, because the encoder emits 11 characters
and the decoder accepts exactly 8. -/
theorem claim_C3_cex :
    pgmDecodeOpt (pgmMakeAllotCode (['M']) (['G']) (['V', 'L'])
      (['K', 'K', 'M']) (['S', 'M'])) = none := by decide

/-- C3 (amended): for the llm_allotment.py codec, decoding the encoded
allot code reproduces the selector's group/type/course/college fields for
every well-formed selector and category; for the pgm.py codec the decoder
rejects every encoded allot code (length 7, 9 or 11, never the required
8), so the round trip never reproduces the selector there. -/
theorem claim_C3 :
    (∀ g t c col cat : Str, g.length = 1 → t.length = 1 → c.length = 2 →
      col.length = 3 → g.all validChar = true → t.all validChar = true →
      c.all validChar = true → col.all validChar = true →
      cat.all validChar = true →
      llmDecodeOpt (llmMakeAllotCode g t c col cat) = some ⟨g, t, c, col⟩) ∧
    (∀ p t c col cat : Str, p.length = 1 → t.length = 1 → c.length = 2 →
      col.length = 3 → p.all validChar = true → t.all validChar = true →
      c.all validChar = true → col.all validChar = true →
      cat.all validChar = true →
      pgmDecodeOpt (pgmMakeAllotCode p t c col cat) = none) := by
  constructor
  · intro g t c col cat hg ht hc hcol hvg hvt hvc hvcol hvcat
    exact llm_decode_make_eq g t c col cat hg ht hc hcol hvg hvt hvc hvcol hvcat
  · intro p t c col cat hp ht hc hcol hvp hvt hvc hvcol hvcat
    exact pgm_decode_make_none p t c col cat hp ht hc hcol hvp hvt hvc hvcol hvcat

/-- C3, witness: the amended statement applied at a concrete selector. -/
theorem claim_C3_witness :
    llmDecodeOpt (llmMakeAllotCode (['B']) (['G']) (['V', 'L'])
        (['K', 'K', 'M']) (['S', 'M'])) =
      some ⟨['B'], ['G'], ['V', 'L'], ['K', 'K', 'M']⟩ ∧
    pgmDecodeOpt (pgmMakeAllotCode (['M']) (['S']) (['G', 'M'])
        (['T', 'V', 'M']) (['H', 'Q'])) = none :=
  ⟨claim_C3.1 (['B']) (['G']) (['V', 'L']) (['K', 'K', 'M']) (['S', 'M'])
      (by decide) (by decide) (by decide) (by decide) (by decide) (by decide)
      (by decide) (by decide) (by decide),
    claim_C3.2 (['M']) (['S']) (['G', 'M']) (['T', 'V', 'M']) (['H', 'Q'])
      (by decide) (by decide) (by decide) (by decide) (by decide) (by decide)
      (by decide) (by decide) (by decide)⟩

/-! ## bpharm_le.py — data model

Seat-category keys `(grp, typ, college, course, category)` are the unit of
capacity; base keys drop the category.  Candidate, option and seat rows
carry the columns the script reads after numeric coercion (`RollNo`,
`BRank`, `OPNO` are plain Python ints, hence `Int`). -/

/-- Full seat-category key `(grp, typ, college, course, category)`. -/
structure SKey where
  grp : Str
  typ : Str
  college : Str
  course : Str
  category : Str
deriving DecidableEq, Repr

/-- Base seat key `(grp, typ, college, course)`. -/
structure BKey where
  grp : Str
  typ : Str
  college : Str
  course : Str
deriving DecidableEq, Repr

/-- Candidate row of bpharm_le.py after numeric coercion. -/
structure BCand where
  roll : Int
  brank : Int
  category : Str
deriving DecidableEq, Repr

/-- Option row of bpharm_le.py after numeric coercion. -/
structure BOpt where
  roll : Int
  opno : Int
  optn : Str
  valid : Str
  delflg : Str
deriving DecidableEq, Repr

/-- Seat-matrix row of bpharm_le.py. -/
structure BSeat where
  grp : Str
  typ : Str
  college : Str
  course : Str
  category : Str
  seat : Int
deriving DecidableEq, Repr

/-- bpharm_le.py `eligible_for_category`: SM seats are open to all, NA
candidates fit only SM, other candidates fit only their own category. -/
def eligible_for_category (seat_cat cand_cat : Str) : Bool :=
  let s := pyNorm seat_cat
  let c0 := pyNorm cand_cat
  let c := if c0 = [] ∨ c0 = ['N', 'U', 'L', 'L'] ∨ c0 = ['N', 'A'] ∨
      c0 = ['N', 'A', 'N'] then ['N', 'A'] else c0
  if s = ['S', 'M'] then true
  else if c = ['N', 'A'] then false
  else s = c

/-- Decoded option of bpharm_le.py (`grp`, `typ`, `course`, `college`,
plus the raw normalised code). -/
structure BDec where
  grp : Str
  typ : Str
  course : Str
  college : Str
  raw : Str
deriving DecidableEq, Repr

/-- bpharm_le.py `decode_opt`: any code of length at least 7. -/
def bphDecodeOpt (opt : Str) : Option BDec :=
  let o := pyNorm opt
  if o.length < 7 then none
  else some ⟨o.take 1, (o.drop 1).take 1, (o.drop 2).take 2, (o.drop 4).take 3, o⟩

/-- Stable insertion of `a` into a sorted list: `a` goes before the first
element it is `le`-related to, so earlier input elements stay first among
equals (Python's sort is stable). -/
def insertStable {α : Type} (le : α → α → Bool) (a : α) : List α → List α
  | [] => [a]
  | b :: bs => if le a b then a :: b :: bs else b :: insertStable le a bs

/-- Stable insertion sort, modelling Python `list.sort` / `sort_values`. -/
def sortStable {α : Type} (le : α → α → Bool) : List α → List α
  | [] => []
  | a :: as => insertStable le a (sortStable le as)

/-- Normalisation of a seat row (`.astype(str).str.upper().str.strip()` on
the five key columns). -/
def cleanBSeat (r : BSeat) : BSeat :=
  ⟨pyNorm r.grp, pyNorm r.typ, pyNorm r.college, pyNorm r.course,
    pyNorm r.category, r.seat⟩

/-- Full key of a seat row. -/
def bseatKey (r : BSeat) : SKey := ⟨r.grp, r.typ, r.college, r.course, r.category⟩

/-- Base key of a seat row. -/
def bbaseKey (r : BSeat) : BKey := ⟨r.grp, r.typ, r.college, r.course⟩

/-- bpharm_le.py `base_to_cats` update: `setdefault(base, set()).add(cat)`.
Python's set iteration order is unspecified; the insertion-ordered list of
distinct categories is one admissible order, and every property proved
below is independent of this order. -/
def addCat (m : List (BKey × List Str)) (b : BKey) (cat : Str) :
    List (BKey × List Str) :=
  let cur := dgetD m b []
  if cat ∈ cur then dset m b cur else dset m b (cur ++ [cat])

/-- The per-option category priority of bpharm_le.py `cat_priority`:
SM first, then the candidate's own community category, then the rest. -/
def catPriority (candCat : Str) (cat : Str) : Nat :=
  let cu := pyUpper cat
  if cu = ['S', 'M'] then 0
  else if cu = candCat ∧ ¬ (cu = [] ∨ cu = ['N', 'A'] ∨ cu = ['N', 'U', 'L', 'L'] ∨
      cu = ['N', 'A', 'N']) then 1
  else 2

/-- Options of one candidate, in ascending OPNO order (bpharm_le.py
`opts_by_roll` grouping followed by the per-candidate stable sort). -/
def optsOf (opts : List BOpt) (roll : Int) : List BOpt :=
  sortStable (fun x y => x.opno ≤ y.opno) (opts.filter (fun o => o.roll = roll))

/-- Inner loop of bpharm_le.py `build_preferences` over the categories of
one base key: state is `(seen_seats, pref_list)`. -/
def prefCats (seatCap : List (SKey × Int)) (candCat : Str) (base : BKey) :
    List Str → List SKey × List SKey → List SKey × List SKey
  | [], st => st
  | sc :: rest, (seen, acc) =>
    let full : SKey := ⟨base.grp, base.typ, base.college, base.course, sc⟩
    if full ∈ seen then prefCats seatCap candCat base rest (seen, acc)
    else if dgetD seatCap full 0 ≤ 0 then prefCats seatCap candCat base rest (seen, acc)
    else if eligible_for_category sc candCat = false then
      prefCats seatCap candCat base rest (seen, acc)
    else prefCats seatCap candCat base rest (full :: seen, acc ++ [full])

/-- Outer loop of bpharm_le.py `build_preferences` over one candidate's
options. -/
def prefOpts (seatCap : List (SKey × Int)) (b2c : List (BKey × List Str))
    (candCat : Str) :
    List BOpt → List SKey × List SKey → List SKey × List SKey
  | [], st => st
  | op :: rest, st =>
    match bphDecodeOpt op.optn with
    | none => prefOpts seatCap b2c candCat rest st
    | some d =>
      let base : BKey := ⟨d.grp, d.typ, d.college, d.course⟩
      if dmem b2c base = false then prefOpts seatCap b2c candCat rest st
      else
        let cats := sortStable
          (fun a b => catPriority candCat a ≤ catPriority candCat b)
          (dgetD b2c base [])
        prefOpts seatCap b2c candCat rest (prefCats seatCap candCat base cats st)

/-- Preference list of one candidate. -/
def buildPrefList (seatCap : List (SKey × Int)) (b2c : List (BKey × List Str))
    (candCat : Str) (ops : List BOpt) : List SKey :=
  (prefOpts seatCap b2c candCat ops ([], [])).2

/-- Result of bpharm_le.py `build_preferences`. -/
structure BPrefs where
  prefs : List (Int × List SKey)
  seatCap : List (SKey × Int)
  rank : List (Int × Int)
deriving Repr

/-- Seat-capacity dict of bpharm_le.py `build_preferences`: per full key,
the sum of `SEAT` over the cleaned seat rows sharing that key. -/
def bphSeatCap (seats : List BSeat) : List (SKey × Int) :=
  (seats.map cleanBSeat).foldl
    (fun m r => dset m (bseatKey r) (dgetD m (bseatKey r) 0 + r.seat)) []

/-- `base_to_cats` dict of bpharm_le.py `build_preferences`. -/
def bphBaseCats (seats : List BSeat) : List (BKey × List Str) :=
  (seats.map cleanBSeat).foldl (fun m r => addCat m (bbaseKey r) r.category) []

/-- One candidate's step of the `build_preferences` loop: record the rank,
and store the preference list when the candidate has options and the list
is non-empty. -/
def bphStep (seatCap : List (SKey × Int)) (b2c : List (BKey × List Str))
    (opts : List BOpt) (st : List (Int × List SKey) × List (Int × Int))
    (c : BCand) : List (Int × List SKey) × List (Int × Int) :=
  if optsOf opts c.roll = [] then (st.1, dset st.2 c.roll c.brank)
  else if buildPrefList seatCap b2c (pyNorm c.category) (optsOf opts c.roll) = []
    then (st.1, dset st.2 c.roll c.brank)
  else (dset st.1 c.roll
    (buildPrefList seatCap b2c (pyNorm c.category) (optsOf opts c.roll)),
    dset st.2 c.roll c.brank)

/-- bpharm_le.py `build_preferences`: cleans the seat matrix, sums seat
capacities per full key, indexes categories per base key, and builds each
candidate's eligible preference list (only seats with positive remaining
capacity and a passing eligibility check are kept). -/
def build_preferences (cand : List BCand) (opts : List BOpt)
    (seats : List BSeat) : BPrefs :=
  let pr := cand.foldl (bphStep (bphSeatCap seats) (bphBaseCats seats) opts)
    ([], [])
  ⟨pr.1, bphSeatCap seats, pr.2⟩

/-! ## bpharm_le.py — `stable_allocation`

The matching loop is embedded as a fuel-indexed recursion.  `assignments`
and `next_prop_index` are Python dicts that are only read and written
pointwise, so they become total functions with the dict defaults
(`assignments` starts at `[]` for every key, `next_prop_index` at `0`).
`free_candidates` is a Python list popped from the end.  The `evlog`
field is pure instrumentation: it records `(proposer, evictee)` pairs at
each eviction and influences nothing. -/

/-- Candidate identifier. -/
abbrev Roll := Int

/-- State of the stable_allocation loop. -/
structure GSt where
  assign : SKey → List Roll
  nextIdx : Roll → Nat
  free : List Roll
  evlog : List (Roll × Roll)

/-- `rank.get(r, 10**9)`. -/
def rkOf (rank : List (Roll × Int)) (r : Roll) : Int := dgetD rank r (10 ^ 9)

/-- `prefs[roll]` (total, with the empty list outside the dict's domain;
in every run below the rolls looked up are exactly the dict's keys). -/
def prefOf (prefs : List (Roll × List SKey)) (r : Roll) : List SKey :=
  dgetD prefs r []

/-- bpharm_le.py `worst_candidate`: `max(c_list, key=rank)`, returning the
first maximal element as CPython does, or `none` on an empty list (where
CPython raises). -/
def worstCandidate (rk : Roll → Int) : List Roll → Option Roll
  | [] => none
  | x :: xs => some (xs.foldl (fun b r => if rk r > rk b then r else b) x)

/-- Inner `while next_prop_index[roll] < len(pref)` loop of
`stable_allocation` for one freed candidate, structurally recursive on the
number `g` of proposals left for this candidate; `proposeFrom` below calls
it with exactly `pref.length - next_prop_index[roll]`, so `g` reaches `0`
exactly when the while-condition fails.  Returns `none` where CPython
would raise (`max` over an empty occupant list). -/
def proposeGo (prefs : List (Roll × List SKey)) (seatCap : List (SKey × Int))
    (rank : List (Roll × Int)) (roll : Roll) (pref : List SKey) :
    Nat → GSt → Option GSt
  | 0, st => some st
  | g + 1, st =>
    if h : st.nextIdx roll < pref.length then
      if ((st.assign (pref.get ⟨st.nextIdx roll, h⟩)).length : Int) <
          dgetD seatCap (pref.get ⟨st.nextIdx roll, h⟩) 0 then
        some ⟨Function.update st.assign (pref.get ⟨st.nextIdx roll, h⟩)
            (st.assign (pref.get ⟨st.nextIdx roll, h⟩) ++ [roll]),
          Function.update st.nextIdx roll (st.nextIdx roll + 1), st.free, st.evlog⟩
      else
        match worstCandidate (rkOf rank) (st.assign (pref.get ⟨st.nextIdx roll, h⟩)) with
        | none => none
        | some worst =>
          if rkOf rank roll < rkOf rank worst then
            some (if Function.update st.nextIdx roll (st.nextIdx roll + 1) worst <
                (prefOf prefs worst).length then
              ⟨Function.update st.assign (pref.get ⟨st.nextIdx roll, h⟩)
                  ((st.assign (pref.get ⟨st.nextIdx roll, h⟩)).erase worst ++ [roll]),
                Function.update st.nextIdx roll (st.nextIdx roll + 1),
                st.free ++ [worst], (roll, worst) :: st.evlog⟩
            else
              ⟨Function.update st.assign (pref.get ⟨st.nextIdx roll, h⟩)
                  ((st.assign (pref.get ⟨st.nextIdx roll, h⟩)).erase worst ++ [roll]),
                Function.update st.nextIdx roll (st.nextIdx roll + 1),
                st.free, (roll, worst) :: st.evlog⟩)
          else
            proposeGo prefs seatCap rank roll pref g
              ⟨st.assign, Function.update st.nextIdx roll (st.nextIdx roll + 1),
                st.free, st.evlog⟩
    else some st

/-- Inner proposal loop of `stable_allocation` for one freed candidate. -/
def proposeFrom (prefs : List (Roll × List SKey)) (seatCap : List (SKey × Int))
    (rank : List (Roll × Int)) (roll : Roll) (pref : List SKey) (st : GSt) :
    Option GSt :=
  proposeGo prefs seatCap rank roll pref (pref.length - st.nextIdx roll) st

/-- Outcome of the outer loop: finished, out of fuel (carrying the state
reached so far), or a CPython exception. -/
inductive GSRes where
  | done (st : GSt)
  | out (st : GSt)
  | crash

/-- Outer `while free_candidates` loop of `stable_allocation`, popping
from the end of the free list. -/
def gsLoop (prefs : List (Roll × List SKey)) (seatCap : List (SKey × Int))
    (rank : List (Roll × Int)) : Nat → GSt → GSRes
  | 0, st => if st.free.isEmpty then .done st else .out st
  | n + 1, st =>
    match st.free.getLast? with
    | none => .done st
    | some roll =>
      let st0 : GSt := ⟨st.assign, st.nextIdx, st.free.dropLast, st.evlog⟩
      match proposeFrom prefs seatCap rank roll (prefOf prefs roll) st0 with
      | none => .crash
      | some st1 => gsLoop prefs seatCap rank n st1

/-- Initial state of `stable_allocation`. -/
def initGS (prefs : List (Roll × List SKey)) : GSt :=
  ⟨fun _ => [], fun _ => 0, prefs.map (fun p => p.1), []⟩

/-- bpharm_le.py `stable_allocation`, fuel-indexed. -/
def stable_allocation (prefs : List (Roll × List SKey))
    (seatCap : List (SKey × Int)) (rank : List (Roll × Int)) (fuel : Nat) :
    GSRes :=
  gsLoop prefs seatCap rank fuel (initGS prefs)

/-- Did the run exhaust its fuel? -/
def isOutRes : GSRes → Bool
  | .out _ => true
  | _ => false

/-- Did the run hit the empty-occupant-list exception? -/
def isCrashRes : GSRes → Bool
  | .crash => true
  | _ => false

/-- Eviction log of the final (or fuel-exhausted) state. -/
def resLog : GSRes → List (Roll × Roll)
  | .done st => st.evlog
  | .out st => st.evlog
  | .crash => []

/-- Occupancy bound on the state a run ends in (vacuous on a crash). -/
def occAfter (seatCap : List (SKey × Int)) : GSRes → Prop
  | .done st => ∀ k, (st.assign k).length ≤ (dgetD seatCap k 0).toNat
  | .out st => ∀ k, (st.assign k).length ≤ (dgetD seatCap k 0).toNat
  | .crash => True

/-- Unserved preference mass: for each candidate, how many preferences are
left beyond the next-proposal index. -/
def prefRemaining (prefs : List (Roll × List SKey)) (f : Roll → Nat) : Nat :=
  (prefs.map (fun p => p.2.length - f p.1)).sum

/-- Termination measure of the proposal loop. -/
def gsMeasure (prefs : List (Roll × List SKey)) (st : GSt) : Nat :=
  2 * prefRemaining prefs st.nextIdx + st.free.length

theorem prefRemaining_mono (prefs : List (Roll × List SKey)) (f g : Roll → Nat)
    (h : ∀ r, f r ≤ g r) :
    prefRemaining prefs g ≤ prefRemaining prefs f := by
  unfold prefRemaining
  apply List.sum_le_sum
  intro p _
  exact Nat.sub_le_sub_left (h p.1) _

theorem prefRemaining_advance (prefs : List (Roll × List SKey)) (f : Roll → Nat)
    (roll : Roll) (h : f roll < (prefOf prefs roll).length) :
    prefRemaining prefs (Function.update f roll (f roll + 1)) + 1 ≤
      prefRemaining prefs f := by
  induction prefs with
  | nil => simp [prefOf, dgetD, List.find?] at h
  | cons p rest ih =>
    by_cases hp : p.1 = roll
    · have hpref : prefOf (p :: rest) roll = p.2 := by
        simp [prefOf, dgetD, List.find?, hp]
      rw [hpref] at h
      have hrest : (rest.map
            (fun q => q.2.length - Function.update f roll (f roll + 1) q.1)).sum ≤
          (rest.map (fun q => q.2.length - f q.1)).sum := by
        apply List.sum_le_sum
        intro q _
        apply Nat.sub_le_sub_left
        by_cases hq : q.1 = roll
        · rw [hq, Function.update_same]
          omega
        · rw [Function.update_noteq hq]
      have hupd : Function.update f roll (f roll + 1) p.1 = f roll + 1 := by
        rw [hp]
        exact Function.update_same _ _ _
      simp only [prefRemaining, List.map_cons, List.sum_cons, hupd, hp]
      omega
    · have hpref : prefOf (p :: rest) roll = prefOf rest roll := by
        simp [prefOf, dgetD, List.find?, decide_eq_false hp]
      rw [hpref] at h
      have htail := ih h
      have hupd : Function.update f roll (f roll + 1) p.1 = f p.1 :=
        Function.update_noteq hp _ _
      simp only [prefRemaining, List.map_cons, List.sum_cons, hupd] at htail ⊢
      omega

theorem proposeGo_measure (prefs : List (Roll × List SKey))
    (seatCap : List (SKey × Int)) (rank : List (Roll × Int)) (roll : Roll) :
    ∀ (g : Nat) (st st' : GSt),
      proposeGo prefs seatCap rank roll (prefOf prefs roll) g st = some st' →
      gsMeasure prefs st' ≤ gsMeasure prefs st := by
  intro g
  induction g with
  | zero =>
    intro st st' hsome
    simp only [proposeGo] at hsome
    cases hsome
    exact le_refl _
  | succ m ih =>
    intro st st' hsome
    simp only [proposeGo] at hsome
    by_cases hlt : st.nextIdx roll < (prefOf prefs roll).length
    · rw [dif_pos hlt] at hsome
      have hadv := prefRemaining_advance prefs st.nextIdx roll hlt
      by_cases hcap : ((st.assign ((prefOf prefs roll).get
          ⟨st.nextIdx roll, hlt⟩)).length : Int) <
          dgetD seatCap ((prefOf prefs roll).get ⟨st.nextIdx roll, hlt⟩) 0
      · rw [if_pos hcap] at hsome
        cases hsome
        simp only [gsMeasure]
        omega
      · rw [if_neg hcap] at hsome
        cases hw : worstCandidate (rkOf rank)
            (st.assign ((prefOf prefs roll).get ⟨st.nextIdx roll, hlt⟩)) with
        | none =>
          simp only [hw] at hsome
          exact Option.noConfusion hsome
        | some worst =>
          simp only [hw] at hsome
          by_cases hrk : rkOf rank roll < rkOf rank worst
          · rw [if_pos hrk] at hsome
            cases hsome
            by_cases hreq : Function.update st.nextIdx roll (st.nextIdx roll + 1)
                worst < (prefOf prefs worst).length
            · rw [if_pos hreq]
              simp only [gsMeasure, List.length_append, List.length_singleton]
              omega
            · rw [if_neg hreq]
              simp only [gsMeasure]
              omega
          · rw [if_neg hrk] at hsome
            have := ih _ st' hsome
            simp only [gsMeasure] at this ⊢
            omega
    · rw [dif_neg hlt] at hsome
      cases hsome
      exact le_refl _

theorem proposeFrom_measure (prefs : List (Roll × List SKey))
    (seatCap : List (SKey × Int)) (rank : List (Roll × Int)) (roll : Roll)
    (st st' : GSt)
    (hsome : proposeFrom prefs seatCap rank roll (prefOf prefs roll) st =
      some st') :
    gsMeasure prefs st' ≤ gsMeasure prefs st :=
  proposeGo_measure prefs seatCap rank roll _ st st' hsome

theorem gsLoop_no_out (prefs : List (Roll × List SKey))
    (seatCap : List (SKey × Int)) (rank : List (Roll × Int)) :
    ∀ (fuel : Nat) (st : GSt), gsMeasure prefs st ≤ fuel →
      isOutRes (gsLoop prefs seatCap rank fuel st) = false := by
  intro fuel
  induction fuel with
  | zero =>
    intro st h
    have hfree : st.free.length = 0 := by
      simp only [gsMeasure] at h
      omega
    have hemp : st.free.isEmpty = true := by
      cases hf : st.free with
      | nil => rfl
      | cons a l => rw [hf] at hfree; simp at hfree
    simp [gsLoop, hemp, isOutRes]
  | succ n ih =>
    intro st h
    simp only [gsLoop]
    cases hl : st.free.getLast? with
    | none => simp [isOutRes]
    | some roll =>
      have hne : st.free ≠ [] := by
        intro he
        rw [he] at hl
        simp at hl
      have hlen : (0 : Nat) < st.free.length := List.length_pos.mpr hne
      cases hp : proposeFrom prefs seatCap rank roll (prefOf prefs roll)
          ⟨st.assign, st.nextIdx, st.free.dropLast, st.evlog⟩ with
      | none => simp [hp, isOutRes]
      | some st1 =>
        simp only [hp]
        have hm1 := proposeFrom_measure prefs seatCap rank roll _ st1 hp
        have hm0 : gsMeasure prefs
            (⟨st.assign, st.nextIdx, st.free.dropLast, st.evlog⟩ : GSt) =
            2 * prefRemaining prefs st.nextIdx + (st.free.length - 1) := by
          simp [gsMeasure, List.length_dropLast]
        have hm : gsMeasure prefs st1 ≤ n := by
          rw [hm0] at hm1
          simp only [gsMeasure] at hm1 h ⊢
          omega
        exact ih st1 hm

/-- C9: on every finite input the stable-matching proposal loop of
bpharm_le.py terminates — with fuel at least the measure
`2 * (remaining preference entries) + |free queue|` the loop never
exhausts its fuel, because every proposal strictly advances some
candidate's preference index and an evicted candidate is requeued only
while preferences remain. -/
theorem claim_C9 (prefs : List (Roll × List SKey)) (seatCap : List (SKey × Int))
    (rank : List (Roll × Int)) (fuel : Nat)
    (h : gsMeasure prefs (initGS prefs) ≤ fuel) :
    isOutRes (stable_allocation prefs seatCap rank fuel) = false :=
  gsLoop_no_out prefs seatCap rank fuel (initGS prefs) h

theorem proposeGo_log (prefs : List (Roll × List SKey))
    (seatCap : List (SKey × Int)) (rank : List (Roll × Int)) (roll : Roll) :
    ∀ (g : Nat) (st st' : GSt),
      proposeGo prefs seatCap rank roll (prefOf prefs roll) g st = some st' →
      (∀ pr ∈ st.evlog, rkOf rank pr.1 < rkOf rank pr.2) →
      ∀ pr ∈ st'.evlog, rkOf rank pr.1 < rkOf rank pr.2 := by
  intro g
  induction g with
  | zero =>
    intro st st' hsome hinv
    simp only [proposeGo] at hsome
    cases hsome
    exact hinv
  | succ m ih =>
    intro st st' hsome hinv
    simp only [proposeGo] at hsome
    by_cases hlt : st.nextIdx roll < (prefOf prefs roll).length
    · rw [dif_pos hlt] at hsome
      by_cases hcap : ((st.assign ((prefOf prefs roll).get
          ⟨st.nextIdx roll, hlt⟩)).length : Int) <
          dgetD seatCap ((prefOf prefs roll).get ⟨st.nextIdx roll, hlt⟩) 0
      · rw [if_pos hcap] at hsome
        cases hsome
        exact hinv
      · rw [if_neg hcap] at hsome
        cases hw : worstCandidate (rkOf rank)
            (st.assign ((prefOf prefs roll).get ⟨st.nextIdx roll, hlt⟩)) with
        | none =>
          simp only [hw] at hsome
          exact Option.noConfusion hsome
        | some worst =>
          simp only [hw] at hsome
          by_cases hrk : rkOf rank roll < rkOf rank worst
          · rw [if_pos hrk] at hsome
            cases hsome
            by_cases hreq : Function.update st.nextIdx roll (st.nextIdx roll + 1)
                worst < (prefOf prefs worst).length
            · rw [if_pos hreq]
              intro pr hpr
              rcases List.mem_cons.mp hpr with rfl | hpr
              · exact hrk
              · exact hinv pr hpr
            · rw [if_neg hreq]
              intro pr hpr
              rcases List.mem_cons.mp hpr with rfl | hpr
              · exact hrk
              · exact hinv pr hpr
          · rw [if_neg hrk] at hsome
            exact ih _ st' hsome hinv
    · rw [dif_neg hlt] at hsome
      cases hsome
      exact hinv

theorem proposeFrom_log (prefs : List (Roll × List SKey))
    (seatCap : List (SKey × Int)) (rank : List (Roll × Int)) (roll : Roll)
    (st st' : GSt)
    (hsome : proposeFrom prefs seatCap rank roll (prefOf prefs roll) st =
      some st')
    (hinv : ∀ pr ∈ st.evlog, rkOf rank pr.1 < rkOf rank pr.2) :
    ∀ pr ∈ st'.evlog, rkOf rank pr.1 < rkOf rank pr.2 :=
  proposeGo_log prefs seatCap rank roll _ st st' hsome hinv

theorem gsLoop_log (prefs : List (Roll × List SKey))
    (seatCap : List (SKey × Int)) (rank : List (Roll × Int)) :
    ∀ (fuel : Nat) (st : GSt),
      (∀ pr ∈ st.evlog, rkOf rank pr.1 < rkOf rank pr.2) →
      ∀ pr ∈ resLog (gsLoop prefs seatCap rank fuel st),
        rkOf rank pr.1 < rkOf rank pr.2 := by
  intro fuel
  induction fuel with
  | zero =>
    intro st hinv
    simp only [gsLoop]
    by_cases hemp : st.free.isEmpty
    · simpa [hemp, resLog] using hinv
    · simpa [hemp, resLog] using hinv
  | succ n ih =>
    intro st hinv
    simp only [gsLoop]
    cases hl : st.free.getLast? with
    | none => simpa [resLog] using hinv
    | some roll =>
      cases hp : proposeFrom prefs seatCap rank roll (prefOf prefs roll)
          ⟨st.assign, st.nextIdx, st.free.dropLast, st.evlog⟩ with
      | none => simp [hp, resLog]
      | some st1 =>
        simp only [hp]
        apply ih st1
        exact proposeFrom_log prefs seatCap rank roll _ st1 hp hinv

/-- C2: in the stable-matching variant of bpharm_le.py, whenever occupant
A is evicted in favour of proposer B, B's merit rank is strictly lower
(better) than A's: every entry `(B, A)` of the eviction log of any
reachable state satisfies `rank(B) < rank(A)` (ranks read with the
`rank.get(r, 10**9)` default of the source). -/
theorem claim_C2 (prefs : List (Roll × List SKey)) (seatCap : List (SKey × Int))
    (rank : List (Roll × Int)) (fuel : Nat) (b a : Roll)
    (h : (b, a) ∈ resLog (stable_allocation prefs seatCap rank fuel)) :
    rkOf rank b < rkOf rank a :=
  gsLoop_log prefs seatCap rank fuel (initGS prefs) (by simp [initGS]) (b, a) h

/-- Concrete seat key for the witness scenarios. -/
def exK : SKey := ⟨['B'], ['G'], ['K', 'K', 'M'], ['V', 'L'], ['S', 'M']⟩

/-- Two candidates contesting one SM seat: roll 1 (rank 5) proposes first,
roll 2 (rank 2) then evicts it. -/
def exPrefs : List (Roll × List SKey) := [(2, [exK]), (1, [exK])]

/-- One seat of capacity 1. -/
def exCap : List (SKey × Int) := [(exK, 1)]

/-- Ranks: candidate 2 is better (lower). -/
def exRank : List (Roll × Int) := [(1, 5), (2, 2)]

/-- C9, witness: the termination bound holds and the loop finishes on the
concrete two-candidate instance. -/
theorem claim_C9_witness :
    gsMeasure exPrefs (initGS exPrefs) ≤ 10 ∧
    isOutRes (stable_allocation exPrefs exCap exRank 10) = false :=
  ⟨by decide, claim_C9 exPrefs exCap exRank 10 (by decide)⟩

/-- C2, witness: on the concrete instance candidate 2 evicts candidate 1,
and indeed rank(2) < rank(1). -/
theorem claim_C2_witness :
    (2, 1) ∈ resLog (stable_allocation exPrefs exCap exRank 10) ∧
    rkOf exRank 2 < rkOf exRank 1 :=
  ⟨by decide, claim_C2 exPrefs exCap exRank 10 2 1 (by decide)⟩

theorem foldl_worst_mem (rk : Roll → Int) (xs : List Roll) :
    ∀ x : Roll, xs.foldl (fun b r => if rk r > rk b then r else b) x ∈ x :: xs := by
  induction xs with
  | nil => intro x; simp
  | cons a l ih =>
    intro x
    simp only [List.foldl_cons]
    rcases List.mem_cons.mp (ih (if rk a > rk x then a else x)) with h2 | h2
    · rw [h2]
      by_cases h : rk a > rk x
      · simp [h]
      · simp [h]
    · exact List.mem_cons_of_mem _ (List.mem_cons_of_mem _ h2)

theorem worstCandidate_mem (rk : Roll → Int) (l : List Roll) (w : Roll)
    (h : worstCandidate rk l = some w) : w ∈ l := by
  cases l with
  | nil => simp [worstCandidate] at h
  | cons x xs =>
    simp only [worstCandidate, Option.some.injEq] at h
    rw [← h]
    exact foldl_worst_mem rk xs x

theorem worstCandidate_none (rk : Roll → Int) (l : List Roll)
    (h : worstCandidate rk l = none) : l = [] := by
  cases l with
  | nil => rfl
  | cons x xs => simp [worstCandidate] at h

/-- Every seat in every preference list of `prefs` has capacity at least
one. -/
def capOK (prefs : List (Roll × List SKey)) (seatCap : List (SKey × Int)) :
    Prop :=
  ∀ pr ∈ prefs, ∀ k ∈ pr.2, 1 ≤ dgetD seatCap k 0

theorem capOK_prefOf {prefs : List (Roll × List SKey)}
    {seatCap : List (SKey × Int)} (h : capOK prefs seatCap) (roll : Roll)
    (k : SKey) (hk : k ∈ prefOf prefs roll) : 1 ≤ dgetD seatCap k 0 := by
  unfold prefOf dgetD at hk
  cases hf : prefs.find? (fun p => p.1 = roll) with
  | some pr =>
    rw [hf] at hk
    exact h pr (List.mem_of_find?_eq_some hf) k hk
  | none =>
    rw [hf] at hk
    simp at hk

/-- Occupancy bound: no seat holds more occupants than its capacity. -/
def occInv (seatCap : List (SKey × Int)) (st : GSt) : Prop :=
  ∀ k, (st.assign k).length ≤ (dgetD seatCap k 0).toNat

theorem proposeGo_safe (prefs : List (Roll × List SKey))
    (seatCap : List (SKey × Int)) (rank : List (Roll × Int)) (roll : Roll)
    (hcap : capOK prefs seatCap) :
    ∀ (g : Nat) (st : GSt), occInv seatCap st →
      proposeGo prefs seatCap rank roll (prefOf prefs roll) g st ≠ none ∧
      ∀ st', proposeGo prefs seatCap rank roll (prefOf prefs roll) g st =
        some st' → occInv seatCap st' := by
  intro g
  induction g with
  | zero =>
    intro st hinv
    refine ⟨by simp [proposeGo], ?_⟩
    intro st' hsome
    simp only [proposeGo] at hsome
    cases hsome
    exact hinv
  | succ m ih =>
    intro st hinv
    by_cases hlt : st.nextIdx roll < (prefOf prefs roll).length
    · have hseat : (prefOf prefs roll).get ⟨st.nextIdx roll, hlt⟩ ∈
          prefOf prefs roll := List.get_mem _ _ hlt
      have hc1 : 1 ≤ dgetD seatCap
          ((prefOf prefs roll).get ⟨st.nextIdx roll, hlt⟩) 0 :=
        capOK_prefOf hcap roll _ hseat
      by_cases hcap2 : ((st.assign ((prefOf prefs roll).get
          ⟨st.nextIdx roll, hlt⟩)).length : Int) <
          dgetD seatCap ((prefOf prefs roll).get ⟨st.nextIdx roll, hlt⟩) 0
      · constructor
        · simp only [proposeGo, dif_pos hlt, if_pos hcap2]
          exact Option.noConfusion
        · intro st' hsome
          simp only [proposeGo, dif_pos hlt, if_pos hcap2,
            Option.some.injEq] at hsome
          rw [← hsome]
          intro k
          by_cases hk : k = (prefOf prefs roll).get ⟨st.nextIdx roll, hlt⟩
          · subst hk
            simp only [Function.update_same, List.length_append,
              List.length_singleton]
            omega
          · simp only [Function.update_noteq hk]
            exact hinv k
      · cases hw : worstCandidate (rkOf rank)
            (st.assign ((prefOf prefs roll).get ⟨st.nextIdx roll, hlt⟩)) with
        | none =>
          exfalso
          have := worstCandidate_none _ _ hw
          rw [this] at hcap2
          simp only [List.length_nil, Int.ofNat_zero] at hcap2
          omega
        | some worst =>
          have hwmem := worstCandidate_mem _ _ _ hw
          have hlen1 : 0 < (st.assign ((prefOf prefs roll).get
              ⟨st.nextIdx roll, hlt⟩)).length := List.length_pos.mpr
            (by intro he; rw [he] at hwmem; simp at hwmem)
          by_cases hrk : rkOf rank roll < rkOf rank worst
          · have hocc : ∀ st'', st'' = GSt.mk (Function.update st.assign
                ((prefOf prefs roll).get ⟨st.nextIdx roll, hlt⟩)
                ((st.assign ((prefOf prefs roll).get
                  ⟨st.nextIdx roll, hlt⟩)).erase worst ++ [roll]))
                (Function.update st.nextIdx roll (st.nextIdx roll + 1))
                (st.free ++ [worst]) ((roll, worst) :: st.evlog) ∨
                st'' = GSt.mk (Function.update st.assign
                ((prefOf prefs roll).get ⟨st.nextIdx roll, hlt⟩)
                ((st.assign ((prefOf prefs roll).get
                  ⟨st.nextIdx roll, hlt⟩)).erase worst ++ [roll]))
                (Function.update st.nextIdx roll (st.nextIdx roll + 1))
                st.free ((roll, worst) :: st.evlog) →
                occInv seatCap st'' := by
              intro st'' hst
              have hlen2 : ((st.assign ((prefOf prefs roll).get
                  ⟨st.nextIdx roll, hlt⟩)).erase worst ++ [roll]).length =
                  (st.assign ((prefOf prefs roll).get
                    ⟨st.nextIdx roll, hlt⟩)).length := by
                simp only [List.length_append, List.length_singleton,
                  List.length_erase_of_mem hwmem]
                omega
              rcases hst with rfl | rfl <;>
              · intro k
                by_cases hk : k = (prefOf prefs roll).get ⟨st.nextIdx roll, hlt⟩
                · subst hk
                  simp only [Function.update_same, hlen2]
                  exact hinv _
                · simp only [Function.update_noteq hk]
                  exact hinv k
            constructor
            · simp only [proposeGo, dif_pos hlt, if_neg hcap2, hw, if_pos hrk]
              split <;> exact Option.noConfusion
            · intro st' hsome
              simp only [proposeGo, dif_pos hlt, if_neg hcap2, hw, if_pos hrk,
                Option.some.injEq] at hsome
              split at hsome <;> exact hocc st' (by rw [← hsome]; simp)
          · have hstep : proposeGo prefs seatCap rank roll (prefOf prefs roll)
                (m + 1) st = proposeGo prefs seatCap rank roll
                (prefOf prefs roll) m
                ⟨st.assign, Function.update st.nextIdx roll (st.nextIdx roll + 1),
                  st.free, st.evlog⟩ := by
              simp only [proposeGo, dif_pos hlt, if_neg hcap2, hw, if_neg hrk]
            rw [hstep]
            exact ih _ hinv
    · constructor
      · simp only [proposeGo, dif_neg hlt]
        exact Option.noConfusion
      · intro st' hsome
        simp only [proposeGo, dif_neg hlt, Option.some.injEq] at hsome
        rw [← hsome]
        exact hinv

theorem gsLoop_safe (prefs : List (Roll × List SKey))
    (seatCap : List (SKey × Int)) (rank : List (Roll × Int))
    (hcap : capOK prefs seatCap) :
    ∀ (fuel : Nat) (st : GSt), occInv seatCap st →
      isCrashRes (gsLoop prefs seatCap rank fuel st) = false ∧
      occAfter seatCap (gsLoop prefs seatCap rank fuel st) := by
  intro fuel
  induction fuel with
  | zero =>
    intro st hinv
    simp only [gsLoop]
    by_cases hemp : st.free.isEmpty
    · simp only [hemp, if_pos]
      exact ⟨rfl, hinv⟩
    · rw [if_neg hemp]
      exact ⟨rfl, hinv⟩
  | succ n ih =>
    intro st hinv
    simp only [gsLoop]
    cases hl : st.free.getLast? with
    | none => exact ⟨rfl, hinv⟩
    | some roll =>
      have hinv0 : occInv seatCap
          (⟨st.assign, st.nextIdx, st.free.dropLast, st.evlog⟩ : GSt) := hinv
      cases hp : proposeFrom prefs seatCap rank roll (prefOf prefs roll)
          ⟨st.assign, st.nextIdx, st.free.dropLast, st.evlog⟩ with
      | none =>
        exfalso
        exact (proposeGo_safe prefs seatCap rank roll hcap _ _ hinv0).1 hp
      | some st1 =>
        simp only [hp]
        exact ih st1
          ((proposeGo_safe prefs seatCap rank roll hcap _ _ hinv0).2 st1 hp)

theorem prefCats_cap (seatCap : List (SKey × Int)) (candCat : Str) (base : BKey) :
    ∀ (cats : List Str) (seen acc : List SKey),
      (∀ k ∈ acc, 1 ≤ dgetD seatCap k 0) →
      ∀ k ∈ (prefCats seatCap candCat base cats (seen, acc)).2,
        1 ≤ dgetD seatCap k 0 := by
  intro cats
  induction cats with
  | nil => intro seen acc h; simpa [prefCats]
  | cons sc rest ih =>
    intro seen acc h
    simp only [prefCats]
    split
    · exact ih seen acc h
    · split
      · exact ih seen acc h
      · split
        · exact ih seen acc h
        · apply ih
          intro k hk
          rcases List.mem_append.mp hk with hk | hk
          · exact h k hk
          · rcases List.mem_singleton.mp hk with rfl
            omega

theorem prefOpts_cap (seatCap : List (SKey × Int)) (b2c : List (BKey × List Str))
    (candCat : Str) :
    ∀ (ops : List BOpt) (seen acc : List SKey),
      (∀ k ∈ acc, 1 ≤ dgetD seatCap k 0) →
      ∀ k ∈ (prefOpts seatCap b2c candCat ops (seen, acc)).2,
        1 ≤ dgetD seatCap k 0 := by
  intro ops
  induction ops with
  | nil => intro seen acc h; simpa [prefOpts]
  | cons op rest ih =>
    intro seen acc h
    simp only [prefOpts]
    cases hdec : bphDecodeOpt op.optn with
    | none => exact ih seen acc h
    | some d =>
      simp only []
      split
      · exact ih seen acc h
      · have h2 := prefCats_cap seatCap candCat ⟨d.grp, d.typ, d.college, d.course⟩
          (sortStable (fun a b => catPriority candCat a ≤ catPriority candCat b)
            (dgetD b2c ⟨d.grp, d.typ, d.college, d.course⟩ []))
          seen acc h
        have hpair : (prefCats seatCap candCat ⟨d.grp, d.typ, d.college, d.course⟩
            (sortStable (fun a b => catPriority candCat a ≤ catPriority candCat b)
              (dgetD b2c ⟨d.grp, d.typ, d.college, d.course⟩ [])) (seen, acc)) =
            ((prefCats seatCap candCat ⟨d.grp, d.typ, d.college, d.course⟩
              (sortStable (fun a b => catPriority candCat a ≤ catPriority candCat b)
                (dgetD b2c ⟨d.grp, d.typ, d.college, d.course⟩ []))
              (seen, acc)).1,
             (prefCats seatCap candCat ⟨d.grp, d.typ, d.college, d.course⟩
              (sortStable (fun a b => catPriority candCat a ≤ catPriority candCat b)
                (dgetD b2c ⟨d.grp, d.typ, d.college, d.course⟩ []))
              (seen, acc)).2) := rfl
        rw [hpair]
        exact ih _ _ h2

/-- Generic foldl invariant. -/
theorem foldl_inv {σ α : Type} (P : σ → Prop) (f : σ → α → σ)
    (hstep : ∀ s a, P s → P (f s a)) :
    ∀ (l : List α) (s : σ), P s → P (l.foldl f s) := by
  intro l
  induction l with
  | nil => intro s h; exact h
  | cons a rest ih =>
    intro s h
    exact ih (f s a) (hstep s a h)

theorem bphStep_cap (seatCap : List (SKey × Int)) (b2c : List (BKey × List Str))
    (opts : List BOpt) (st : List (Int × List SKey) × List (Int × Int))
    (c : BCand)
    (h : ∀ pr ∈ st.1, ∀ k ∈ pr.2, 1 ≤ dgetD seatCap k 0) :
    ∀ pr ∈ (bphStep seatCap b2c opts st c).1, ∀ k ∈ pr.2,
      1 ≤ dgetD seatCap k 0 := by
  unfold bphStep
  split
  · exact h
  · split
    · exact h
    · simp only []
      intro pr hpr
      refine dset_valuesP (fun pl => ∀ k ∈ pl, 1 ≤ dgetD seatCap k 0)
        st.1 c.roll _ h ?_ pr hpr
      intro k hk
      exact prefOpts_cap seatCap b2c (pyNorm c.category) (optsOf opts c.roll)
        [] [] (by simp) k hk

theorem build_preferences_cap (cand : List BCand) (opts : List BOpt)
    (seats : List BSeat) :
    ∀ pr ∈ (build_preferences cand opts seats).prefs,
      ∀ k ∈ pr.2, 1 ≤ dgetD (build_preferences cand opts seats).seatCap k 0 := by
  have hmain := foldl_inv
    (P := fun (st : List (Int × List SKey) × List (Int × Int)) =>
      ∀ pr ∈ st.1, ∀ k ∈ pr.2, 1 ≤ dgetD (bphSeatCap seats) k 0)
    (bphStep (bphSeatCap seats) (bphBaseCats seats) opts)
    (fun s a hs => bphStep_cap (bphSeatCap seats) (bphBaseCats seats) opts s a hs)
    cand ([], []) (by simp)
  exact hmain

/-- C10: (a) every seat key in any preference list built by
`build_preferences` has capacity at least 1 (seats with non-positive
remaining capacity are dropped while building); (b) consequently a run of
`stable_allocation` on the built preferences never evaluates
`worst_candidate` on an empty occupant list (no crash), and in the state
any run ends in — finished or interrupted at any fuel — every seat holds
at most its capacity in occupants. -/
theorem claim_C10 :
    (∀ (cand : List BCand) (opts : List BOpt) (seats : List BSeat),
      ∀ pr ∈ (build_preferences cand opts seats).prefs,
        ∀ k ∈ pr.2, 1 ≤ dgetD (build_preferences cand opts seats).seatCap k 0) ∧
    (∀ (cand : List BCand) (opts : List BOpt) (seats : List BSeat) (fuel : Nat),
      isCrashRes (stable_allocation (build_preferences cand opts seats).prefs
        (build_preferences cand opts seats).seatCap
        (build_preferences cand opts seats).rank fuel) = false ∧
      occAfter (build_preferences cand opts seats).seatCap
        (stable_allocation (build_preferences cand opts seats).prefs
          (build_preferences cand opts seats).seatCap
          (build_preferences cand opts seats).rank fuel)) := by
  constructor
  · exact build_preferences_cap
  · intro cand opts seats fuel
    exact gsLoop_safe (build_preferences cand opts seats).prefs
      (build_preferences cand opts seats).seatCap
      (build_preferences cand opts seats).rank
      (build_preferences_cap cand opts seats) fuel
      (initGS (build_preferences cand opts seats).prefs)
      (by intro k; simp [initGS])

/-- Concrete candidate / option / seat rows for the build_preferences
witness: one SC candidate with one option onto one SM seat. -/
def exCand : List BCand := [⟨1, 5, ['S', 'C']⟩]

/-- One valid option row for candidate 1. -/
def exOpts : List BOpt :=
  [⟨1, 1, ['B', 'G', 'V', 'L', 'K', 'K', 'M'], ['Y'], ['N']⟩]

/-- One SM seat with capacity 1. -/
def exSeats : List BSeat :=
  [⟨['B'], ['G'], ['K', 'K', 'M'], ['V', 'L'], ['S', 'M'], 1⟩]

/-- C10, witness: on the concrete instance the built preference list is
`[(1, [exK])]`, its only seat has capacity at least 1, and the
stable-allocation run neither crashes nor exceeds any capacity. -/
theorem claim_C10_witness :
    ((1, [exK]) ∈ (build_preferences exCand exOpts exSeats).prefs ∧
      exK ∈ [exK] ∧
      1 ≤ dgetD (build_preferences exCand exOpts exSeats).seatCap exK 0) ∧
    (isCrashRes (stable_allocation (build_preferences exCand exOpts exSeats).prefs
        (build_preferences exCand exOpts exSeats).seatCap
        (build_preferences exCand exOpts exSeats).rank 10) = false ∧
      occAfter (build_preferences exCand exOpts exSeats).seatCap
        (stable_allocation (build_preferences exCand exOpts exSeats).prefs
          (build_preferences exCand exOpts exSeats).seatCap
          (build_preferences exCand exOpts exSeats).rank 10)) :=
  ⟨⟨by decide, by decide,
    claim_C10.1 exCand exOpts exSeats (1, [exK]) (by decide) exK (by decide)⟩,
   claim_C10.2 exCand exOpts exSeats 10⟩

/-! ## dnm.py — multi-phase allotment

Candidates carry the merged allotment-details columns (`Curr_Admn`,
`JOINSTATUS_1..3`); the phase is one of the four values offered by the
page's select box.  `pandas.sort_values` does not document a stable order
for equal keys, so ties are resolved by the stable sort here; every
property proved below is independent of the order of equal-rank
candidates. -/

/-- The four phases of dnm.py. -/
inductive Phase where
  | p1
  | p2
  | p3
  | p4
deriving DecidableEq, Repr

/-- Candidate row of dnm.py after the merge with allotment details. -/
structure DCand where
  roll : Int
  arank : Int
  category : Str
  curr : Str
  js1 : Str
  js2 : Str
  js3 : Str
deriving DecidableEq, Repr

/-- The `JOINSTATUS_i` column selected by `joinstatus_col` for a phase
(`row.get(js, "")`; phase 1 selects no column, modelled as `""`). -/
def jsOf (c : DCand) : Phase → Str
  | .p1 => []
  | .p2 => c.js1
  | .p3 => c.js2
  | .p4 => c.js3

/-- dnm.py `is_candidate_eligible`: candidates with a current admission
are always kept; phase 1 keeps everyone; otherwise a join status of `N`
for the just-completed phase excludes the candidate. -/
def is_candidate_eligible (c : DCand) (phase : Phase) : Bool :=
  if pyStrip c.curr ≠ [] then true
  else if phase = .p1 then true
  else if pyNormSU (jsOf c phase) = ['N'] then false
  else true

/-- dnm.py `category_eligible`: AM and SM are open, NA-like candidates fit
only those, others fit their own category. -/
def dnmCategoryEligible (seat_cat cand_cat : Str) : Bool :=
  let s := pyNormSU seat_cat
  let c := pyNormSU cand_cat
  if s = ['A', 'M'] ∨ s = ['S', 'M'] then true
  else if c = [] ∨ c = ['N', 'A'] ∨ c = ['N', 'U', 'L', 'L'] ∨
    c = ['N', '/', 'A'] then false
  else s = c

/-- dnm.py `decode_opt` (strip-then-upper, length at least 7). -/
def dnmDecodeOpt (opt : Str) : Option (Str × Str × Str × Str) :=
  let o := pyNormSU opt
  if o.length < 7 then none
  else some (o.take 1, (o.drop 1).take 1, (o.drop 2).take 2, (o.drop 4).take 3)

/-- Option row of dnm.py. -/
structure DOpt where
  roll : Int
  opno : Int
  optn : Str
  valid : Str
  delflg : Str
deriving DecidableEq, Repr

/-- dnm.py option cleaning: keep rows with `OPNO != 0`,
`ValidOption.upper() == "Y"`, `Delflg.upper() != "Y"` (note: no strip, and
negative OPNO values survive), sorted by (RollNo, OPNO). -/
def dnmOptsFilter (opts : List DOpt) : List DOpt :=
  sortStable (fun a b => a.roll < b.roll || (a.roll = b.roll && a.opno ≤ b.opno))
    (opts.filter (fun o => o.opno ≠ 0 ∧ pyUpper o.valid = ['Y'] ∧
      pyUpper o.delflg ≠ ['Y']))

/-- Previous-phase allotment row of dnm.py (fields used by the seat
reduction). -/
structure DPrev where
  grp : Str
  typ : Str
  college : Str
  course : Str
  seatCat : Str
deriving DecidableEq, Repr

/-- dnm.py reduction of the seat map by the previous phase: one seat per
previous allotment, clamped at zero, only for keys present in the map. -/
def dnmReduce (m : List (SKey × Int)) (prev : List DPrev) : List (SKey × Int) :=
  prev.foldl (fun m r =>
    if dmem m ⟨r.grp, r.typ, r.college, r.course, r.seatCat⟩ then
      dset m ⟨r.grp, r.typ, r.college, r.course, r.seatCat⟩
        (max 0 (dgetD m ⟨r.grp, r.typ, r.college, r.course, r.seatCat⟩ 0 - 1))
    else m) m

/-- Eligible candidate pool of dnm.py: eligibility filter, then protected
candidates (non-empty `Curr_Admn`) sorted by ARank, then fresh candidates
sorted by ARank. -/
def dnmPool (cands : List DCand) (phase : Phase) : List DCand :=
  let elig := cands.filter (fun c => is_candidate_eligible c phase)
  sortStable (fun a b => a.arank ≤ b.arank)
      (elig.filter (fun c => pyStrip c.curr ≠ [])) ++
    sortStable (fun a b => a.arank ≤ b.arank)
      (elig.filter (fun c => pyStrip c.curr = []))

/-- Python `s.split("|")`. -/
def splitPipeAux : Str → Str → List Str
  | [], acc => [acc.reverse]
  | c :: rest, acc =>
    if c = '|' then acc.reverse :: splitPipeAux rest []
    else splitPipeAux rest (c :: acc)

/-- Python `str(x).split("|")`. -/
def splitPipe (s : Str) : List Str := splitPipeAux s []

/-- The current-admission seat key of a candidate: parsed from
`Curr_Admn` split on `|` into exactly five normalised parts. -/
def dnmCurrKey (c : DCand) : Option SKey :=
  if pyStrip c.curr ≠ [] then
    match splitPipe c.curr with
    | [a, b, cc, d, e] =>
      some ⟨pyNorm a, pyNorm b, pyNorm cc, pyNorm d, pyNorm e⟩
    | _ => none
  else none

/-- Code-point lexicographic order on strings (Python `sorted`). -/
def lexLe : Str → Str → Bool
  | [], _ => true
  | _ :: _, [] => false
  | a :: as, b :: bs =>
    if a.toNat < b.toNat then true
    else if b.toNat < a.toNat then false
    else lexLe as bs

/-- dnm.py category priority for one base seat: AM and SM first, then the
remaining categories of the matching seat rows in sorted order. -/
def dnmPriority (seatRows : List BSeat) : List Str :=
  [['A', 'M'], ['S', 'M']] ++ sortStable lexLe
    (((seatRows.map (fun r => r.category)).dedup).filter
      (fun c => c ≠ ['A', 'M'] ∧ c ≠ ['S', 'M']))

/-- Inner row scan of dnm.py: first seat row of the given category with
remaining capacity and a passing eligibility check. -/
def dnmFindRow (m : List (SKey × Int)) (ccat : Str) : List BSeat → Option SKey
  | [] => none
  | sr :: rest =>
    if dgetD m (bseatKey sr) 0 ≤ 0 then dnmFindRow m ccat rest
    else if dnmCategoryEligible sr.category ccat then some (bseatKey sr)
    else dnmFindRow m ccat rest

/-- Category-priority scan of dnm.py for one decoded option. -/
def dnmChoose (m : List (SKey × Int)) (ccat : Str) (seatRows : List BSeat) :
    List Str → Option SKey
  | [] => none
  | cat :: rest =>
    match dnmFindRow m ccat (seatRows.filter (fun r => r.category = cat)) with
    | some k => some k
    | none => dnmChoose m ccat seatRows rest

/-- Option walk of dnm.py for one candidate: first option whose base has
seat rows and yields a seat.  Returns the chosen key together with the
decoded fields used in the output record. -/
def dnmWalk (seats : List BSeat) (m : List (SKey × Int)) (ccat : Str) :
    List DOpt → Option (SKey × Str × Str × Str × Str)
  | [] => none
  | op :: rest =>
    match dnmDecodeOpt op.optn with
    | none => dnmWalk seats m ccat rest
    | some (og, otyp, ocourse, oclg) =>
      if seats.filter (fun r => r.grp = og ∧ r.typ = otyp ∧ r.college = oclg ∧
          r.course = ocourse) = [] then dnmWalk seats m ccat rest
      else
        match dnmChoose m ccat
            (seats.filter (fun r => r.grp = og ∧ r.typ = otyp ∧
              r.college = oclg ∧ r.course = ocourse))
            (dnmPriority (seats.filter (fun r => r.grp = og ∧ r.typ = otyp ∧
              r.college = oclg ∧ r.course = ocourse))) with
        | some k => some (k, og, otyp, ocourse, oclg)
        | none => dnmWalk seats m ccat rest

/-- Output record of dnm.py. -/
structure DRec where
  phase : Phase
  roll : Int
  arank : Int
  ccat : Str
  grp : Str
  typ : Str
  college : Str
  course : Str
  seatCat : Str
deriving DecidableEq, Repr

/-- Running state of the dnm.py allotment loop. -/
structure DnmSt where
  m : List (SKey × Int)
  recs : List DRec
deriving DecidableEq, Repr

/-- One candidate step of dnm.py: walk the candidate's cleaned options;
on a hit, release the current-admission seat (if any) and reserve the
chosen one. -/
def dnmStep (phase : Phase) (seats : List BSeat) (opts : List DOpt)
    (st : DnmSt) (c : DCand) : DnmSt :=
  if opts.filter (fun o => o.roll = c.roll) = [] then st
  else
    match dnmWalk seats st.m (pyNorm c.category)
        (opts.filter (fun o => o.roll = c.roll)) with
    | none => st
    | some (k, og, otyp, ocourse, oclg) =>
      let m1 := match dnmCurrKey c with
        | some ck => dset st.m ck (dgetD st.m ck 0 + 1)
        | none => st.m
      ⟨dset m1 k (dgetD m1 k 0 - 1),
        st.recs ++ [⟨phase, c.roll, c.arank, pyNorm c.category, og, otyp,
          oclg, ocourse, k.category⟩]⟩

/-- State of the dnm.py run after the first `n` candidates of the pool
("after any prefix of steps"). -/
def dnmStateAfter (phase : Phase) (cands : List DCand) (seats : List BSeat)
    (opts : List DOpt) (prev : List DPrev) (n : Nat) : DnmSt :=
  ((dnmPool cands phase).take n).foldl
    (dnmStep phase (seats.map cleanBSeat) (dnmOptsFilter opts))
    ⟨dnmReduce (bphSeatCap seats) prev, []⟩

/-- dnm.py `dnm_allotment`: seed the ledger from the seat matrix reduced
by the previous phase, then run the candidate loop over the pool. -/
def dnm_allotment (phase : Phase) (cands : List DCand) (seats : List BSeat)
    (opts : List DOpt) (prev : List DPrev) : DnmSt :=
  (dnmPool cands phase).foldl
    (dnmStep phase (seats.map cleanBSeat) (dnmOptsFilter opts))
    ⟨dnmReduce (bphSeatCap seats) prev, []⟩

theorem mem_insertStable {α : Type} (le : α → α → Bool) (a x : α) :
    ∀ l, x ∈ insertStable le a l → x = a ∨ x ∈ l := by
  intro l
  induction l with
  | nil => intro h; simpa [insertStable] using h
  | cons b bs ih =>
    intro h
    simp only [insertStable] at h
    split at h
    · rcases List.mem_cons.mp h with rfl | h2
      · exact Or.inl rfl
      · exact Or.inr h2
    · rcases List.mem_cons.mp h with rfl | h2
      · exact Or.inr (List.mem_cons_self _ _)
      · rcases ih h2 with h3 | h3
        · exact Or.inl h3
        · exact Or.inr (List.mem_cons_of_mem _ h3)

theorem mem_sortStable {α : Type} (le : α → α → Bool) :
    ∀ (l : List α) (x : α), x ∈ sortStable le l → x ∈ l := by
  intro l
  induction l with
  | nil => intro x h; simp [sortStable] at h
  | cons a as ih =>
    intro x h
    simp only [sortStable] at h
    rcases mem_insertStable le a x _ h with rfl | h2
    · exact List.mem_cons_self _ _
    · exact List.mem_cons_of_mem _ (ih x h2)

theorem dgetD_P {K V : Type} [DecidableEq K] (P : V → Prop) (d : List (K × V))
    (k : K) (v0 : V) (hd : ∀ p ∈ d, P p.2) (hv : P v0) : P (dgetD d k v0) := by
  unfold dgetD
  cases hf : d.find? (fun p => p.1 = k) with
  | some p => exact hd p (List.mem_of_find?_eq_some hf)
  | none => exact hv

/-- Generic foldl invariant restricted to the elements of the list. -/
theorem foldl_inv_mem {σ α : Type} (P : σ → Prop) (f : σ → α → σ) :
    ∀ (l : List α), (∀ s a, a ∈ l → P s → P (f s a)) →
      ∀ s, P s → P (l.foldl f s) := by
  intro l
  induction l with
  | nil => intro _ s h; exact h
  | cons a rest ih =>
    intro hstep s h
    exact ih (fun s b hb hs => hstep s b (List.mem_cons_of_mem _ hb) hs)
      (f s a) (hstep s a (List.mem_cons_self _ _) h)

theorem bphSeatCap_nonneg (seats : List BSeat)
    (hs : ∀ r ∈ seats, 0 ≤ r.seat) :
    ∀ p ∈ bphSeatCap seats, 0 ≤ p.2 := by
  unfold bphSeatCap
  refine foldl_inv_mem
    (P := fun (m : List (SKey × Int)) => ∀ p ∈ m, (0 : Int) ≤ p.2) _
    (seats.map cleanBSeat) ?_ [] (by simp)
  intro m r hr hm
  have hseat : 0 ≤ r.seat := by
    rcases List.mem_map.mp hr with ⟨r0, hr0, rfl⟩
    exact hs r0 hr0
  refine dset_valuesP _ m (bseatKey r) _ hm ?_
  have := dgetD_P (fun v : Int => 0 ≤ v) m (bseatKey r) 0 hm (le_refl 0)
  omega

theorem dnmReduce_nonneg (m : List (SKey × Int)) (prev : List DPrev)
    (hm : ∀ p ∈ m, 0 ≤ p.2) :
    ∀ p ∈ dnmReduce m prev, 0 ≤ p.2 := by
  unfold dnmReduce
  refine foldl_inv (P := fun (m : List (SKey × Int)) => ∀ p ∈ m, (0 : Int) ≤ p.2)
    _ ?_ prev m hm
  intro s r hs
  split
  · refine dset_valuesP _ s _ _ hs ?_
    omega
  · exact hs

theorem dnmFindRow_pos (m : List (SKey × Int)) (ccat : Str) :
    ∀ (rows : List BSeat) (k : SKey), dnmFindRow m ccat rows = some k →
      0 < dgetD m k 0 := by
  intro rows
  induction rows with
  | nil => intro k h; simp [dnmFindRow] at h
  | cons sr rest ih =>
    intro k h
    simp only [dnmFindRow] at h
    split at h
    · exact ih k h
    · split at h
      · cases h
        omega
      · exact ih k h

theorem dnmChoose_pos (m : List (SKey × Int)) (ccat : Str)
    (seatRows : List BSeat) :
    ∀ (cats : List Str) (k : SKey), dnmChoose m ccat seatRows cats = some k →
      0 < dgetD m k 0 := by
  intro cats
  induction cats with
  | nil => intro k h; simp [dnmChoose] at h
  | cons cat rest ih =>
    intro k h
    simp only [dnmChoose] at h
    cases hf : dnmFindRow m ccat (seatRows.filter (fun r => r.category = cat)) with
    | some k2 =>
      rw [hf] at h
      cases h
      exact dnmFindRow_pos m ccat _ _ hf
    | none =>
      rw [hf] at h
      exact ih k h

theorem dnmWalk_pos (seats : List BSeat) (m : List (SKey × Int)) (ccat : Str) :
    ∀ (ops : List DOpt) (k : SKey) (og otyp oc ocl : Str),
      dnmWalk seats m ccat ops = some (k, og, otyp, oc, ocl) →
      0 < dgetD m k 0 := by
  intro ops
  induction ops with
  | nil => intro k og otyp oc ocl h; simp [dnmWalk] at h
  | cons op rest ih =>
    intro k og otyp oc ocl h
    simp only [dnmWalk] at h
    cases hdec : dnmDecodeOpt op.optn with
    | none =>
      rw [hdec] at h
      exact ih k og otyp oc ocl h
    | some d =>
      obtain ⟨g0, t0, c0, l0⟩ := d
      rw [hdec] at h
      simp only [] at h
      split at h
      · exact ih k og otyp oc ocl h
      · cases hc : dnmChoose m ccat
            (seats.filter (fun r => r.grp = g0 ∧ r.typ = t0 ∧ r.college = l0 ∧
              r.course = c0))
            (dnmPriority (seats.filter (fun r => r.grp = g0 ∧ r.typ = t0 ∧
              r.college = l0 ∧ r.course = c0))) with
        | some k2 =>
          rw [hc] at h
          cases h
          exact dnmChoose_pos m ccat _ _ _ hc
        | none =>
          rw [hc] at h
          exact ih k og otyp oc ocl h

theorem dnmStep_nonneg (phase : Phase) (seats : List BSeat) (opts : List DOpt)
    (st : DnmSt) (c : DCand) (h : ∀ p ∈ st.m, 0 ≤ p.2) :
    ∀ p ∈ (dnmStep phase seats opts st c).m, 0 ≤ p.2 := by
  unfold dnmStep
  split
  · exact h
  · cases hw : dnmWalk seats st.m (pyNorm c.category)
        (opts.filter (fun o => o.roll = c.roll)) with
    | none => exact h
    | some r =>
      obtain ⟨k, og, otyp, oc, ocl⟩ := r
      have hpos := dnmWalk_pos seats st.m (pyNorm c.category) _ k og otyp oc ocl hw
      simp only []
      cases hck : dnmCurrKey c with
      | none =>
        simp only []
        refine dset_valuesP _ st.m k _ h ?_
        omega
      | some ck =>
        simp only []
        have hm1 : ∀ p ∈ dset st.m ck (dgetD st.m ck 0 + 1), 0 ≤ p.2 := by
          refine dset_valuesP _ st.m ck _ h ?_
          have := dgetD_P (fun v : Int => 0 ≤ v) st.m ck 0 h (le_refl 0)
          omega
        refine dset_valuesP _ _ k _ hm1 ?_
        by_cases hkc : k = ck
        · subst hkc
          rw [dgetD_dset_self]
          omega
        · rw [dgetD_dset_ne st.m ck k _ 0 hkc]
          omega

theorem dnmStep_recs (phase : Phase) (seats : List BSeat) (opts : List DOpt)
    (st : DnmSt) (c : DCand) :
    ∀ rec ∈ (dnmStep phase seats opts st c).recs,
      rec ∈ st.recs ∨ rec.roll = c.roll := by
  unfold dnmStep
  split
  · intro rec hrec
    exact Or.inl hrec
  · cases hw : dnmWalk seats st.m (pyNorm c.category)
        (opts.filter (fun o => o.roll = c.roll)) with
    | none =>
      intro rec hrec
      exact Or.inl hrec
    | some r =>
      obtain ⟨k, og, otyp, oc, ocl⟩ := r
      intro rec hrec
      simp only [] at hrec
      rcases List.mem_append.mp hrec with h2 | h2
      · exact Or.inl h2
      · rcases List.mem_singleton.mp h2 with rfl
        exact Or.inr rfl

theorem dnmPool_eligible (cands : List DCand) (phase : Phase) :
    ∀ c ∈ dnmPool cands phase, is_candidate_eligible c phase = true := by
  intro c hc
  unfold dnmPool at hc
  rcases List.mem_append.mp hc with h | h <;>
  · have h2 := mem_sortStable _ _ _ h
    have h3 := List.mem_filter.mp h2
    exact (List.mem_filter.mp h3.1).2

/-- All output records of the dnm loop carry the roll of some pool
candidate. -/
theorem dnmFold_roll (phase : Phase) (seats : List BSeat) (opts : List DOpt) :
    ∀ (l : List DCand) (st : DnmSt) (pool : List DCand),
      (∀ c ∈ l, c ∈ pool) →
      (∀ rec ∈ st.recs, ∃ c ∈ pool, rec.roll = c.roll) →
      ∀ rec ∈ (l.foldl (dnmStep phase seats opts) st).recs,
        ∃ c ∈ pool, rec.roll = c.roll := by
  intro l
  induction l with
  | nil => intro st pool _ hst; exact hst
  | cons a rest ih =>
    intro st pool hl hst
    refine ih (dnmStep phase seats opts st a) pool
      (fun c hc => hl c (List.mem_cons_of_mem _ hc)) ?_
    intro rec hrec
    rcases dnmStep_recs phase seats opts st a rec hrec with h2 | h2
    · exact hst rec h2
    · exact ⟨a, hl a (List.mem_cons_self _ _), h2⟩

/-- C4 (amended): a previous-phase candidate whose join status for the
completed phase is `N` and who has no current admission is excluded from
the eligible pool and receives no assignment — but dnm.py emits no audit
record for them: the output contains records only for pool candidates, so
blocked candidates are simply absent from the output.  (A candidate with a
non-empty current admission stays eligible regardless of join status.) -/
theorem claim_C4 :
    (∀ (c : DCand) (phase : Phase), phase ≠ Phase.p1 → pyStrip c.curr = [] →
      pyNormSU (jsOf c phase) = ['N'] →
      is_candidate_eligible c phase = false) ∧
    (∀ (cands : List DCand) (phase : Phase),
      ∀ c ∈ dnmPool cands phase, is_candidate_eligible c phase = true) ∧
    (∀ (phase : Phase) (cands : List DCand) (seats : List BSeat)
      (opts : List DOpt) (prev : List DPrev),
      ∀ rec ∈ (dnm_allotment phase cands seats opts prev).recs,
        ∃ c ∈ dnmPool cands phase, rec.roll = c.roll) := by
  refine ⟨?_, dnmPool_eligible, ?_⟩
  · intro c phase hph hcurr hjs
    unfold is_candidate_eligible
    rw [if_neg (by simp [hcurr]), if_neg hph, if_pos hjs]
  · intro phase cands seats opts prev
    exact dnmFold_roll phase (seats.map cleanBSeat) (dnmOptsFilter opts)
      (dnmPool cands phase) _ (dnmPool cands phase) (fun c hc => hc)
      (by simp)

/-- C4, counterexample: a blocked candidate (join status `N`, no current
admission) is ineligible and — contrary to the claim — appears nowhere in
the output: the run over a pool containing only this candidate produces no
records at all, in particular no audit record with a blocked reason. -/
theorem claim_C4_cex :
    is_candidate_eligible ⟨7, 1, ['S', 'C'], [], ['N'], [], []⟩ Phase.p2 = false ∧
    (dnm_allotment Phase.p2 [⟨7, 1, ['S', 'C'], [], ['N'], [], []⟩]
      [⟨['B'], ['G'], ['K', 'K', 'M'], ['V', 'L'], ['S', 'M'], 1⟩]
      [⟨7, 1, ['B', 'G', 'V', 'L', 'K', 'K', 'M'], ['Y'], []⟩] []).recs = [] := by
  constructor
  · decide
  · decide

/-- C4, witness: the amended statement applied at the blocked candidate
and at a one-candidate run. -/
theorem claim_C4_witness :
    is_candidate_eligible ⟨7, 1, ['S', 'C'], [], ['N'], [], []⟩ Phase.p2 = false ∧
    (∀ rec ∈ (dnm_allotment Phase.p1 [⟨1, 1, ['S', 'C'], [], [], [], []⟩]
        [⟨['B'], ['G'], ['K', 'K', 'M'], ['V', 'L'], ['S', 'M'], 1⟩]
        [⟨1, 1, ['B', 'G', 'V', 'L', 'K', 'K', 'M'], ['Y'], []⟩] []).recs,
      ∃ c ∈ dnmPool [⟨1, 1, ['S', 'C'], [], [], [], []⟩] Phase.p1,
        rec.roll = c.roll) :=
  ⟨claim_C4.1 ⟨7, 1, ['S', 'C'], [], ['N'], [], []⟩ Phase.p2 (by decide)
      (by decide) (by decide),
    claim_C4.2.2 Phase.p1 [⟨1, 1, ['S', 'C'], [], [], [], []⟩]
      [⟨['B'], ['G'], ['K', 'K', 'M'], ['V', 'L'], ['S', 'M'], 1⟩]
      [⟨1, 1, ['B', 'G', 'V', 'L', 'K', 'K', 'M'], ['Y'], []⟩] []⟩

/-- C5 (amended): dnm.py performs no OPNO comparison for protected
candidates — their walk considers every cleaned option and takes the first
available eligible seat, releasing the old one (see the counterexample).
What does hold is the retention half: whenever a candidate's step produces
no new record (no option yielded a seat), the seat map is left completely
unchanged, so a protected candidate's previously reserved seat stays
reserved in the ledger. -/
theorem claim_C5 (phase : Phase) (seats : List BSeat) (opts : List DOpt)
    (st : DnmSt) (c : DCand) :
    (dnmStep phase seats opts st c).recs = st.recs →
    (dnmStep phase seats opts st c).m = st.m := by
  unfold dnmStep
  split
  · intro _
    rfl
  · cases hw : dnmWalk seats st.m (pyNorm c.category)
        (opts.filter (fun o => o.roll = c.roll)) with
    | none =>
      intro _
      rfl
    | some r =>
      obtain ⟨k, og, otyp, oc, ocl⟩ := r
      intro h
      exfalso
      simp only [] at h
      have := congrArg List.length h
      simp at this

/-- Protected candidate of the C5 counterexample: holds the KKM seat
(their OPNO-1 option) from the previous phase. -/
def c5cand : DCand := ⟨7, 3, ['S', 'C'],
  ['B', '|', 'G', '|', 'K', 'K', 'M', '|', 'V', 'L', '|', 'S', 'M'],
  [], [], []⟩

/-- Seat matrix of the C5 counterexample: one KKM and one TVM seat. -/
def c5seats : List BSeat :=
  [⟨['B'], ['G'], ['K', 'K', 'M'], ['V', 'L'], ['S', 'M'], 1⟩,
   ⟨['B'], ['G'], ['T', 'V', 'M'], ['V', 'L'], ['S', 'M'], 1⟩]

/-- Options of the C5 counterexample: OPNO 1 is the held KKM seat, OPNO 2
the TVM seat. -/
def c5opts : List DOpt :=
  [⟨7, 1, ['B', 'G', 'V', 'L', 'K', 'K', 'M'], ['Y'], []⟩,
   ⟨7, 2, ['B', 'G', 'V', 'L', 'T', 'V', 'M'], ['Y'], []⟩]

/-- Previous allotment of the C5 counterexample: the KKM seat is taken. -/
def c5prev : List DPrev :=
  [⟨['B'], ['G'], ['K', 'K', 'M'], ['V', 'L'], ['S', 'M']⟩]

/-- C5, counterexample: the protected candidate holds the seat of their
OPNO-1 option, so no option has a strictly lower OPNO and the claim says
they must retain the KKM seat with the ledger unchanged.  Instead dnm.py
assigns their OPNO-2 option (TVM) and releases the protected KKM seat back
to the ledger (its count returns to 1). -/
theorem claim_C5_cex :
    (dnm_allotment Phase.p2 [c5cand] c5seats c5opts c5prev).recs =
      [⟨Phase.p2, 7, 3, ['S', 'C'], ['B'], ['G'], ['T', 'V', 'M'], ['V', 'L'],
        ['S', 'M']⟩] ∧
    dgetD (dnm_allotment Phase.p2 [c5cand] c5seats c5opts c5prev).m exK 0 = 1 := by
  constructor
  · decide
  · decide

/-- C5, witness: the amended statement applied to a step that yields no
record (the candidate has no options), whose seat map is unchanged. -/
theorem claim_C5_witness :
    (dnmStep Phase.p2 c5seats [] ⟨[(exK, 0)], []⟩ c5cand).recs =
      (⟨[(exK, 0)], []⟩ : DnmSt).recs ∧
    (dnmStep Phase.p2 c5seats [] ⟨[(exK, 0)], []⟩ c5cand).m =
      (⟨[(exK, 0)], []⟩ : DnmSt).m :=
  ⟨by decide, claim_C5 Phase.p2 c5seats [] ⟨[(exK, 0)], []⟩ c5cand (by decide)⟩

/-- Fresh candidate of the C6 counterexample and witness. -/
def c6cand : DCand := ⟨1, 1, ['S', 'C'], [], [], [], []⟩

/-- C6, counterexample: with no seats, the single pool candidate receives
no record at all — the output is empty, so the candidate is silently
dropped rather than given an explicit exclusion record. -/
theorem claim_C6_cex :
    dnmPool [c6cand] Phase.p1 = [c6cand] ∧
    (dnm_allotment Phase.p1 [c6cand] [] [] []).recs = [] := by
  constructor
  · decide
  · decide

/-! ## llm_allotment.py — phase-aware allotment with conversion

`seat_cap` is a `defaultdict(lambda: defaultdict(int))`: item access
inserts missing keys, so every access threads the dict through the state.
The option rows carry `ValidOption`/`Delflg` columns (present in the input
schema) that this script never reads. -/

/-- Candidate row of llm_allotment.py. -/
structure LCand where
  roll : Int
  lrank : Int
  category : Str
  special3 : Str
  others : Str
  status : Str
deriving DecidableEq, Repr

/-- Column normalisation of the candidate frame. -/
def cleanLCand (c : LCand) : LCand :=
  ⟨c.roll, c.lrank, pyNorm c.category, pyNorm c.special3, pyNorm c.others,
    pyNorm c.status⟩

/-- Cleaned candidate list: withdrawn (`Status == "S"`) rows dropped,
sorted by LRank. -/
def llmCands (cands : List LCand) : List LCand :=
  sortStable (fun a b => a.lrank ≤ b.lrank)
    ((cands.map cleanLCand).filter (fun c => c.status ≠ ['S']))

/-- Option row of llm_allotment.py.  The `valid`/`delflg` columns exist in
the option-entry schema but are never consulted by this script. -/
structure LOpt where
  roll : Int
  opno : Int
  optn : Str
  valid : Str
  delflg : Str
deriving DecidableEq, Repr

/-- Options sorted by (RollNo, OPNO); no validity or deletion filter is
applied in llm_allotment.py. -/
def llmOpts (opts : List LOpt) : List LOpt :=
  sortStable (fun a b => a.roll < b.roll || (a.roll = b.roll && a.opno ≤ b.opno))
    opts

/-- Output record of llm_allotment.py. -/
structure LRec where
  roll : Int
  lrank : Int
  college : Str
  course : Str
  seatCat : Str
  opno : Int
  code : Str
deriving DecidableEq, Repr

/-- Conversion-log entry of llm_allotment.py. -/
structure LConv where
  college : Str
  course : Str
  fromSeat : Str
  toSeat : Str
  roll : Int
deriving DecidableEq, Repr

/-- Running state of llm_allotment.py: nested seat-capacity dict,
allotted-roll set, result records, conversion log. -/
structure LlmSt where
  cap : List (BKey × List (Str × Int))
  allotted : List Int
  recs : List LRec
  clog : List LConv
deriving DecidableEq, Repr

/-- llm_allotment.py seat-capacity build:
`seat_cap[base][category] += SEAT` over the cleaned seat rows. -/
def llmSeatCap (seats : List BSeat) : List (BKey × List (Str × Int)) :=
  (seats.map cleanBSeat).foldl (fun cap r =>
    let a1 := dgetIns cap (bbaseKey r) []
    let a2 := dgetIns a1.1 r.category 0
    dset a1.2 (bbaseKey r) (dset a2.2 r.category (a2.1 + r.seat))) []

/-- The allotment action shared by the three pass-1 branches: decrement
`seat_cap[base][sc]` (a fresh getitem chain, as the `-=` desugars to),
mark the candidate allotted, append the record. -/
def llmAllot (st : LlmSt) (base : BKey) (sc : Str) (C : LCand) (op : LOpt) :
    LlmSt :=
  let b1 := dgetIns st.cap base []
  let b2 := dgetIns b1.1 sc 0
  ⟨dset (dset b1.2 base b2.2) base (dset b2.2 sc (b2.1 - 1)),
    C.roll :: st.allotted,
    st.recs ++ [⟨C.roll, C.lrank, base.college, base.course, sc, op.opno,
      llmMakeAllotCode base.grp base.typ base.college base.course sc⟩],
    st.clog⟩

/-- The getitem chain `seat_cap[base][key]` of pass 1: returns the count
and the state with both defaultdict insertions applied. -/
def llmProbe (st : LlmSt) (base : BKey) (key : Str) : Int × LlmSt :=
  let a1 := dgetIns st.cap base []
  let a2 := dgetIns a1.1 key 0
  (a2.1, ⟨dset a1.2 base a2.2, st.allotted, st.recs, st.clog⟩)

/-- Third pass-1 branch: the open SM seat. -/
def llmTrySM (C : LCand) (base : BKey) (op : LOpt) (st : LlmSt) :
    Bool × LlmSt :=
  if 0 < (llmProbe st base (['S', 'M'])).1 then
    (true, llmAllot (llmProbe st base (['S', 'M'])).2 base (['S', 'M']) C op)
  else (false, (llmProbe st base (['S', 'M'])).2)

/-- Second pass-1 branch: the candidate's exact category. -/
def llmTryCat (C : LCand) (base : BKey) (op : LOpt) (st : LlmSt) :
    Bool × LlmSt :=
  if 0 < (llmProbe st base C.category).1 then
    (true, llmAllot (llmProbe st base C.category).2 base C.category C op)
  else llmTrySM C base op (llmProbe st base C.category).2

/-- Pass-1 attempt on one decoded option: PD first when `Special3 = PD`
(short-circuit: the PD key is only touched then), then the candidate's
category, then SM.  Returns whether the candidate was seated, plus the
threaded state (dict insertions persist even on failure). -/
def llmTrySeat (C : LCand) (d : LSel) (op : LOpt) (st : LlmSt) :
    Bool × LlmSt :=
  let base : BKey := ⟨d.grp, d.typ, d.college, d.course⟩
  if C.special3 = ['P', 'D'] then
    if 0 < (llmProbe st base (['P', 'D'])).1 then
      (true, llmAllot (llmProbe st base (['P', 'D'])).2 base (['P', 'D']) C op)
    else llmTryCat C base op (llmProbe st base (['P', 'D'])).2
  else llmTryCat C base op st

/-- Pass-1 option walk of one candidate. -/
def llmTryOp (C : LCand) : List LOpt → LlmSt → LlmSt
  | [], st => st
  | op :: rest, st =>
    match llmDecodeOpt op.optn with
    | none => llmTryOp C rest st
    | some d =>
      match llmTrySeat C d op st with
      | (true, st') => st'
      | (false, st') => llmTryOp C rest st'

/-- One candidate of pass 1 (`phase >= 3` additionally skips candidates
with no options). -/
def llmP1Step (phase : Nat) (opts : List LOpt) (st : LlmSt) (C : LCand) :
    LlmSt :=
  if 3 ≤ phase ∧ opts.filter (fun o => o.roll = C.roll) = [] then st
  else llmTryOp C (opts.filter (fun o => o.roll = C.roll)) st

/-- llm_allotment.py `CONVERSION_MAP`; `EW` is strictly non-convertible. -/
def CONVERSION_MAP : List (Str × List Str) :=
  [(['S', 'C'], [['S', 'T'], ['O', 'E'], ['S', 'M']]),
   (['S', 'T'], [['S', 'C'], ['O', 'E'], ['S', 'M']]),
   (['P', 'D'], [['S', 'M']]),
   (['M', 'U'], [['S', 'M']]), (['E', 'Z'], [['S', 'M']]),
   (['B', 'H'], [['S', 'M']]),
   (['B', 'X'], [['S', 'M']]), (['K', 'N'], [['S', 'M']]),
   (['K', 'U'], [['S', 'M']]),
   (['V', 'K'], [['S', 'M']]), (['D', 'V'], [['S', 'M']]),
   (['E', 'W'], [])]

/-- llm_allotment.py `eligible`. -/
def llmEligible (seat_cat cand_cat special3 others : Str) : Bool :=
  if seat_cat = ['S', 'M'] then true
  else if seat_cat = ['P', 'D'] then special3 = ['P', 'D']
  else if seat_cat = ['O', 'E'] then others = ['O', 'E']
  else seat_cat = cand_cat

/-- First eligible fallback category in a conversion chain. -/
def llmFindConv (C : LCand) : List Str → Option Str
  | [] => none
  | conv :: rest =>
    if llmEligible conv C.category C.special3 C.others then some conv
    else llmFindConv C rest

/-- Scan of the snapshot `list(seat_cap[base].items())`: first category
with remaining vacancy whose conversion chain offers an eligible fallback.
Returns the source category, the fallback, and the snapshot count. -/
def llmConvSeat (C : LCand) : List (Str × Int) → Option (Str × Str × Int)
  | [] => none
  | (sc, cnt) :: rest =>
    if cnt ≤ 0 then llmConvSeat C rest
    else match llmFindConv C (dgetD CONVERSION_MAP sc []) with
      | some conv => some (sc, conv, cnt)
      | none => llmConvSeat C rest

/-- Pass-2 option walk of one unallotted candidate.  The two source
assertions (`seat_cat != "EW"` and `seat_cap[base][seat_cat] > 0`) are the
two `none` outcomes. -/
def llmConvTry (C : LCand) : List LOpt → LlmSt → Option LlmSt
  | [], st => some st
  | op :: rest, st =>
    match llmDecodeOpt op.optn with
    | none => llmConvTry C rest st
    | some d =>
      let a1 := dgetIns st.cap (⟨d.grp, d.typ, d.college, d.course⟩ : BKey) []
      match llmConvSeat C a1.1 with
      | none => llmConvTry C rest ⟨a1.2, st.allotted, st.recs, st.clog⟩
      | some (sc, conv, _) =>
        if sc = ['E', 'W'] then none
        else
          let b1 := dgetIns a1.2 (⟨d.grp, d.typ, d.college, d.course⟩ : BKey) []
          let b2 := dgetIns b1.1 sc 0
          if b2.1 ≤ 0 then none
          else some ⟨dset (dset b1.2 (⟨d.grp, d.typ, d.college, d.course⟩ : BKey)
              b2.2) (⟨d.grp, d.typ, d.college, d.course⟩ : BKey)
              (dset b2.2 sc (b2.1 - 1)),
            C.roll :: st.allotted,
            st.recs ++ [⟨C.roll, C.lrank, d.college, d.course, conv, op.opno,
              llmMakeAllotCode d.grp d.typ d.college d.course conv⟩],
            st.clog ++ [⟨d.college, d.course, sc, conv, C.roll⟩]⟩

/-- One candidate of pass 2: skip the allotted and the option-less. -/
def llmP2Step (opts : List LOpt) (stO : Option LlmSt) (C : LCand) :
    Option LlmSt :=
  match stO with
  | none => none
  | some st =>
    if C.roll ∈ st.allotted ∨ opts.filter (fun o => o.roll = C.roll) = []
      then some st
    else llmConvTry C (opts.filter (fun o => o.roll = C.roll)) st

/-- llm_allotment.py `llm_allotment`: pass 1 over all candidates, then —
for phase 3 and later — the vacancy-conversion pass.  `none` marks an
assertion failure. -/
def llm_allotment (phase : Nat) (cands : List LCand) (opts : List LOpt)
    (seats : List BSeat) : Option LlmSt :=
  let st1 := (llmCands cands).foldl (llmP1Step phase (llmOpts opts))
    ⟨llmSeatCap seats, [], [], []⟩
  if 3 ≤ phase then (llmCands cands).foldl (llmP2Step (llmOpts opts)) (some st1)
  else some st1

/-- State after the first `n` candidates of pass 1. -/
def llmP1After (phase : Nat) (cands : List LCand) (opts : List LOpt)
    (seats : List BSeat) (n : Nat) : LlmSt :=
  ((llmCands cands).take n).foldl (llmP1Step phase (llmOpts opts))
    ⟨llmSeatCap seats, [], [], []⟩

/-- State after the first `n` candidates of pass 2 (starting from the full
pass-1 state). -/
def llmP2After (phase : Nat) (cands : List LCand) (opts : List LOpt)
    (seats : List BSeat) (n : Nat) : Option LlmSt :=
  ((llmCands cands).take n).foldl (llmP2Step (llmOpts opts))
    (some ((llmCands cands).foldl (llmP1Step phase (llmOpts opts))
      ⟨llmSeatCap seats, [], [], []⟩))

/-- All capacity entries of a nested seat dict are non-negative. -/
def capNN (cap : List (BKey × List (Str × Int))) : Prop :=
  ∀ b ∈ cap, ∀ e ∈ b.2, (0 : Int) ≤ e.2

/-- `capNN` lifted to a possibly-failed run. -/
def llmCapNN : Option LlmSt → Prop
  | some st => capNN st.cap
  | none => True

/-- Conversion log of a run (`[]` on an assertion failure). -/
def llmClog : Option LlmSt → List LConv
  | some st => st.clog
  | none => []

/-- Result records of a run (`[]` on an assertion failure). -/
def llmRecs : Option LlmSt → List LRec
  | some st => st.recs
  | none => []

theorem find?_dset_self {K V : Type} [DecidableEq K]
    (d : List (K × V)) (k : K) (v : V) :
    (dset d k v).find? (fun p => p.1 = k) = some (k, v) := by
  induction d with
  | nil => simp [dset, List.find?]
  | cons p rest ih =>
    by_cases h : p.1 = k
    · simp [dset, h, List.find?]
    · simp only [dset, if_neg h, List.find?, decide_eq_false h]
      exact ih

theorem dgetIns_dset_self {K V : Type} [DecidableEq K]
    (d : List (K × V)) (k : K) (v v0 : V) :
    dgetIns (dset d k v) k v0 = (v, dset d k v) := by
  unfold dgetIns
  rw [find?_dset_self]

theorem dgetIns_idem {K V : Type} [DecidableEq K]
    (d : List (K × V)) (k : K) (v0 : V) :
    dgetIns (dgetIns d k v0).2 k v0 = ((dgetIns d k v0).1, (dgetIns d k v0).2) := by
  unfold dgetIns
  cases hf : d.find? (fun p => p.1 = k) with
  | some p => simp [hf]
  | none =>
    simp only [hf, List.find?_append]
    simp [List.find?]

theorem dgetIns_nodup {K V : Type} [DecidableEq K]
    (d : List (K × V)) (k : K) (v0 : V) (h : (dkeys d).Nodup) :
    (dkeys (dgetIns d k v0).2).Nodup := by
  unfold dgetIns
  cases hf : d.find? (fun p => p.1 = k) with
  | some p => simpa using h
  | none =>
    simp only []
    have hk : k ∉ dkeys d := by
      intro hmem
      rcases List.mem_map.mp hmem with ⟨p, hp, he⟩
      have h2 := List.find?_eq_none.mp hf p hp
      simp [he] at h2
    simp only [dkeys, List.map_append, List.map_cons, List.map_nil]
    rw [List.nodup_append]
    refine ⟨h, List.nodup_singleton _, ?_⟩
    intro x hx hx2
    rcases List.mem_singleton.mp hx2 with rfl
    exact hk hx

theorem llmProbe_nn (st : LlmSt) (base : BKey) (key : Str) (h : capNN st.cap) :
    capNN (llmProbe st base key).2.cap := by
  unfold capNN at h ⊢
  unfold llmProbe
  have ha1 := dgetIns_valuesP
    (fun inner : List (Str × Int) => ∀ e ∈ inner, (0 : Int) ≤ e.2)
    st.cap base [] h (by simp)
  have ha2 := dgetIns_valuesP (fun v : Int => 0 ≤ v)
    (dgetIns st.cap base []).1 key 0 ha1.1 (le_refl 0)
  exact dset_valuesP
    (fun inner : List (Str × Int) => ∀ e ∈ inner, (0 : Int) ≤ e.2)
    _ base _ ha1.2 ha2.2

theorem llmAllot_after_probe_nn (st : LlmSt) (base : BKey) (key : Str)
    (C : LCand) (op : LOpt) (h : capNN st.cap)
    (hpos : 0 < (llmProbe st base key).1) :
    capNN (llmAllot (llmProbe st base key).2 base key C op).cap := by
  unfold capNN at h ⊢
  unfold llmProbe at hpos ⊢
  unfold llmAllot
  simp only [] at hpos ⊢
  rw [dgetIns_dset_self, dgetIns_idem]
  have ha1 := dgetIns_valuesP
    (fun inner : List (Str × Int) => ∀ e ∈ inner, (0 : Int) ≤ e.2)
    st.cap base [] h (by simp)
  have ha2 := dgetIns_valuesP (fun v : Int => 0 ≤ v)
    (dgetIns st.cap base []).1 key 0 ha1.1 (le_refl 0)
  have hinner : ∀ e ∈ dset (dgetIns (dgetIns st.cap base []).1 key 0).2 key
      ((dgetIns (dgetIns st.cap base []).1 key 0).1 - 1), (0 : Int) ≤ e.2 := by
    refine dset_valuesP _ _ key _ ha2.2 ?_
    omega
  refine dset_valuesP
    (fun inner : List (Str × Int) => ∀ e ∈ inner, (0 : Int) ≤ e.2)
    _ base _ ?_ hinner
  refine dset_valuesP
    (fun inner : List (Str × Int) => ∀ e ∈ inner, (0 : Int) ≤ e.2)
    _ base _ ?_ ha2.2
  exact dset_valuesP
    (fun inner : List (Str × Int) => ∀ e ∈ inner, (0 : Int) ≤ e.2)
    _ base _ ha1.2 ha2.2

theorem llmTrySM_nn (C : LCand) (base : BKey) (op : LOpt) (st : LlmSt)
    (h : capNN st.cap) : capNN (llmTrySM C base op st).2.cap := by
  unfold llmTrySM
  split
  · exact llmAllot_after_probe_nn st base _ C op h (by assumption)
  · exact llmProbe_nn st base _ h

theorem llmTryCat_nn (C : LCand) (base : BKey) (op : LOpt) (st : LlmSt)
    (h : capNN st.cap) : capNN (llmTryCat C base op st).2.cap := by
  unfold llmTryCat
  split
  · exact llmAllot_after_probe_nn st base _ C op h (by assumption)
  · exact llmTrySM_nn C base op _ (llmProbe_nn st base _ h)

theorem llmTrySeat_nn (C : LCand) (d : LSel) (op : LOpt) (st : LlmSt)
    (h : capNN st.cap) : capNN (llmTrySeat C d op st).2.cap := by
  unfold llmTrySeat
  split
  · simp only []
    split
    · exact llmAllot_after_probe_nn st _ _ C op h (by assumption)
    · exact llmTryCat_nn C _ op _ (llmProbe_nn st _ _ h)
  · simp only []
    exact llmTryCat_nn C _ op st h

theorem llmTryOp_nn (C : LCand) :
    ∀ (ops : List LOpt) (st : LlmSt), capNN st.cap →
      capNN (llmTryOp C ops st).cap := by
  intro ops
  induction ops with
  | nil => intro st h; exact h
  | cons op rest ih =>
    intro st h
    simp only [llmTryOp]
    cases hdec : llmDecodeOpt op.optn with
    | none =>
      simp only [hdec]
      exact ih st h
    | some d =>
      simp only [hdec]
      rcases hs : llmTrySeat C d op st with ⟨b, st'⟩
      have h2 : capNN st'.cap := by
        have h3 := llmTrySeat_nn C d op st h
        rw [hs] at h3
        exact h3
      cases b
      · exact ih st' h2
      · exact h2

theorem llmP1Step_nn (phase : Nat) (opts : List LOpt) (st : LlmSt) (C : LCand)
    (h : capNN st.cap) : capNN (llmP1Step phase opts st C).cap := by
  unfold llmP1Step
  split
  · exact h
  · exact llmTryOp_nn C _ st h

theorem llmSeatCap_nn (seats : List BSeat) (hs : ∀ r ∈ seats, 0 ≤ r.seat) :
    capNN (llmSeatCap seats) := by
  unfold capNN llmSeatCap
  refine foldl_inv_mem
    (P := fun (cap : List (BKey × List (Str × Int))) =>
      ∀ b ∈ cap, ∀ e ∈ b.2, (0 : Int) ≤ e.2) _ (seats.map cleanBSeat) ?_ []
    (by simp)
  intro cap r hr hcap
  have hseat : 0 ≤ r.seat := by
    rcases List.mem_map.mp hr with ⟨r0, hr0, rfl⟩
    exact hs r0 hr0
  have ha1 := dgetIns_valuesP
    (fun inner : List (Str × Int) => ∀ e ∈ inner, (0 : Int) ≤ e.2)
    cap (bbaseKey r) [] hcap (by simp)
  have ha2 := dgetIns_valuesP (fun v : Int => 0 ≤ v)
    (dgetIns cap (bbaseKey r) []).1 r.category 0 ha1.1 (le_refl 0)
  simp only []
  refine dset_valuesP
    (fun inner : List (Str × Int) => ∀ e ∈ inner, (0 : Int) ≤ e.2)
    _ (bbaseKey r) _ ha1.2 ?_
  refine dset_valuesP (fun v : Int => 0 ≤ v) _ r.category _ ha2.2 ?_
  omega

theorem dgetIns_fst {K V : Type} [DecidableEq K] (d : List (K × V)) (k : K)
    (v0 : V) : (dgetIns d k v0).1 = dgetD d k v0 := by
  unfold dgetIns dgetD
  cases d.find? (fun p => p.1 = k) <;> rfl

/-- Every inner category dict of the nested seat-capacity dict has
distinct keys. -/
def innerND (cap : List (BKey × List (Str × Int))) : Prop :=
  ∀ b ∈ cap, (dkeys b.2).Nodup

theorem llmSeatCap_nd (seats : List BSeat) : innerND (llmSeatCap seats) := by
  unfold innerND llmSeatCap
  refine foldl_inv
    (P := fun (cap : List (BKey × List (Str × Int))) =>
      ∀ b ∈ cap, (dkeys b.2).Nodup) _ ?_ (seats.map cleanBSeat) [] (by simp)
  intro cap r hcap
  have ha1 := dgetIns_valuesP
    (fun inner : List (Str × Int) => (dkeys inner).Nodup)
    cap (bbaseKey r) [] hcap (by simp [dkeys])
  refine dset_valuesP (fun inner : List (Str × Int) => (dkeys inner).Nodup)
    _ (bbaseKey r) _ ha1.2 ?_
  exact dnodup_dset _ _ _ (dgetIns_nodup _ _ _ ha1.1)

theorem llmProbe_nd (st : LlmSt) (base : BKey) (key : Str)
    (h : innerND st.cap) : innerND (llmProbe st base key).2.cap := by
  unfold innerND at h ⊢
  unfold llmProbe
  have ha1 := dgetIns_valuesP
    (fun inner : List (Str × Int) => (dkeys inner).Nodup)
    st.cap base [] h (by simp [dkeys])
  exact dset_valuesP (fun inner : List (Str × Int) => (dkeys inner).Nodup)
    _ base _ ha1.2 (dgetIns_nodup _ _ _ ha1.1)

theorem llmAllot_after_probe_nd (st : LlmSt) (base : BKey) (key : Str)
    (C : LCand) (op : LOpt) (h : innerND st.cap) :
    innerND (llmAllot (llmProbe st base key).2 base key C op).cap := by
  unfold innerND at h ⊢
  unfold llmProbe llmAllot
  simp only []
  rw [dgetIns_dset_self, dgetIns_idem]
  have ha1 := dgetIns_valuesP
    (fun inner : List (Str × Int) => (dkeys inner).Nodup)
    st.cap base [] h (by simp [dkeys])
  have hnd2 : (dkeys (dgetIns (dgetIns st.cap base []).1 key 0).2).Nodup :=
    dgetIns_nodup _ _ _ ha1.1
  refine dset_valuesP (fun inner : List (Str × Int) => (dkeys inner).Nodup)
    _ base _ ?_ (dnodup_dset _ _ _ hnd2)
  refine dset_valuesP (fun inner : List (Str × Int) => (dkeys inner).Nodup)
    _ base _ ?_ hnd2
  exact dset_valuesP (fun inner : List (Str × Int) => (dkeys inner).Nodup)
    _ base _ ha1.2 hnd2

theorem llmTrySM_nd (C : LCand) (base : BKey) (op : LOpt) (st : LlmSt)
    (h : innerND st.cap) : innerND (llmTrySM C base op st).2.cap := by
  unfold llmTrySM
  split
  · exact llmAllot_after_probe_nd st base _ C op h
  · exact llmProbe_nd st base _ h

theorem llmTryCat_nd (C : LCand) (base : BKey) (op : LOpt) (st : LlmSt)
    (h : innerND st.cap) : innerND (llmTryCat C base op st).2.cap := by
  unfold llmTryCat
  split
  · exact llmAllot_after_probe_nd st base _ C op h
  · exact llmTrySM_nd C base op _ (llmProbe_nd st base _ h)

theorem llmTrySeat_nd (C : LCand) (d : LSel) (op : LOpt) (st : LlmSt)
    (h : innerND st.cap) : innerND (llmTrySeat C d op st).2.cap := by
  unfold llmTrySeat
  split
  · simp only []
    split
    · exact llmAllot_after_probe_nd st _ _ C op h
    · exact llmTryCat_nd C _ op _ (llmProbe_nd st _ _ h)
  · simp only []
    exact llmTryCat_nd C _ op st h

theorem llmTryOp_nd (C : LCand) :
    ∀ (ops : List LOpt) (st : LlmSt), innerND st.cap →
      innerND (llmTryOp C ops st).cap := by
  intro ops
  induction ops with
  | nil => intro st h; exact h
  | cons op rest ih =>
    intro st h
    simp only [llmTryOp]
    cases hdec : llmDecodeOpt op.optn with
    | none =>
      simp only [hdec]
      exact ih st h
    | some d =>
      simp only [hdec]
      rcases hs : llmTrySeat C d op st with ⟨b, st'⟩
      have h2 : innerND st'.cap := by
        have h3 := llmTrySeat_nd C d op st h
        rw [hs] at h3
        exact h3
      cases b
      · exact ih st' h2
      · exact h2

theorem llmP1Step_nd (phase : Nat) (opts : List LOpt) (st : LlmSt) (C : LCand)
    (h : innerND st.cap) : innerND (llmP1Step phase opts st C).cap := by
  unfold llmP1Step
  split
  · exact h
  · exact llmTryOp_nd C _ st h

theorem llmConvSeat_spec (C : LCand) :
    ∀ (l : List (Str × Int)) (sc conv : Str) (cnt : Int),
      llmConvSeat C l = some (sc, conv, cnt) →
      (sc, cnt) ∈ l ∧ 0 < cnt ∧
      llmFindConv C (dgetD CONVERSION_MAP sc []) = some conv := by
  intro l
  induction l with
  | nil => intro sc conv cnt h; simp [llmConvSeat] at h
  | cons p rest ih =>
    obtain ⟨sc0, cnt0⟩ := p
    intro sc conv cnt h
    simp only [llmConvSeat] at h
    split at h
    · rcases ih sc conv cnt h with ⟨h1, h2, h3⟩
      exact ⟨List.mem_cons_of_mem _ h1, h2, h3⟩
    · cases hf : llmFindConv C (dgetD CONVERSION_MAP sc0 []) with
      | some conv0 =>
        rw [hf] at h
        cases h
        exact ⟨List.mem_cons_self _ _, by omega, hf⟩
      | none =>
        rw [hf] at h
        rcases ih sc conv cnt h with ⟨h1, h2, h3⟩
        exact ⟨List.mem_cons_of_mem _ h1, h2, h3⟩

theorem llmConvSeat_ne_EW (C : LCand) (l : List (Str × Int)) (sc conv : Str)
    (cnt : Int) (h : llmConvSeat C l = some (sc, conv, cnt)) :
    sc ≠ ['E', 'W'] := by
  intro he
  have h3 := (llmConvSeat_spec C l sc conv cnt h).2.2
  rw [he] at h3
  have h4 : dgetD CONVERSION_MAP (['E', 'W']) ([] : List Str) = [] := by decide
  rw [h4] at h3
  simp [llmFindConv] at h3

theorem llmConvTry_props (C : LCand) :
    ∀ (ops : List LOpt) (st : LlmSt), innerND st.cap →
      llmConvTry C ops st ≠ none ∧
      ∀ st', llmConvTry C ops st = some st' →
        innerND st'.cap ∧ (capNN st.cap → capNN st'.cap) ∧
        st'.allotted ⊇ st.allotted ∧
        (∀ e ∈ st'.clog, e ∈ st.clog ∨ e.fromSeat ≠ ['E', 'W']) := by
  intro ops
  induction ops with
  | nil =>
    intro st hnd
    refine ⟨by simp [llmConvTry], ?_⟩
    intro st' h
    simp only [llmConvTry] at h
    cases h
    exact ⟨hnd, fun h => h, fun x hx => hx, fun e he => Or.inl he⟩
  | cons op rest ih =>
    intro st hnd
    simp only [llmConvTry]
    cases hdec : llmDecodeOpt op.optn with
    | none =>
      simp only []
      exact ih st hnd
    | some d =>
      simp only []
      have ha1 := dgetIns_valuesP
        (fun inner : List (Str × Int) => (dkeys inner).Nodup)
        st.cap (⟨d.grp, d.typ, d.college, d.course⟩ : BKey) [] hnd
        (by simp [dkeys])
      cases hcs : llmConvSeat C
          (dgetIns st.cap (⟨d.grp, d.typ, d.college, d.course⟩ : BKey) []).1 with
      | none =>
        simp only []
        have hnd1 : innerND
            (dgetIns st.cap (⟨d.grp, d.typ, d.college, d.course⟩ : BKey) []).2 :=
          ha1.2
        rcases ih ⟨(dgetIns st.cap
            (⟨d.grp, d.typ, d.college, d.course⟩ : BKey) []).2,
            st.allotted, st.recs, st.clog⟩ hnd1 with ⟨hne, hrest⟩
        refine ⟨hne, ?_⟩
        intro st' h
        rcases hrest st' h with ⟨r1, r2, r3, r4⟩
        refine ⟨r1, ?_, r3, r4⟩
        intro hcnn
        refine r2 ?_
        have := dgetIns_valuesP
          (fun inner : List (Str × Int) => ∀ e ∈ inner, (0 : Int) ≤ e.2)
          st.cap (⟨d.grp, d.typ, d.college, d.course⟩ : BKey) [] hcnn (by simp)
        exact this.2
      | some scc =>
        obtain ⟨sc, conv, cnt⟩ := scc
        have hspec := llmConvSeat_spec C _ sc conv cnt hcs
        have hnew := llmConvSeat_ne_EW C _ sc conv cnt hcs
        simp only []
        rw [if_neg hnew]
        rw [dgetIns_idem]
        have hfst : (dgetIns (dgetIns st.cap
            (⟨d.grp, d.typ, d.college, d.course⟩ : BKey) []).1 sc 0).1 = cnt := by
          rw [dgetIns_fst]
          exact dgetD_of_mem _ sc cnt 0 ha1.1 hspec.1
        rw [if_neg (by rw [hfst]; omega)]
        constructor
        · exact Option.noConfusion
        · intro st' h
          rw [Option.some.injEq] at h
          rw [← h]
          refine ⟨?_, ?_, ?_, ?_⟩
          · intro b hb
            have hnd2 := dgetIns_nodup _ sc 0 ha1.1
            refine dset_valuesP
              (fun inner : List (Str × Int) => (dkeys inner).Nodup)
              _ _ _ ?_ (dnodup_dset _ _ _ hnd2) b hb
            exact dset_valuesP
              (fun inner : List (Str × Int) => (dkeys inner).Nodup)
              _ _ _ ha1.2 hnd2
          · intro hcnn
            have hc1 := dgetIns_valuesP
              (fun inner : List (Str × Int) => ∀ e ∈ inner, (0 : Int) ≤ e.2)
              st.cap (⟨d.grp, d.typ, d.college, d.course⟩ : BKey) [] hcnn
              (by simp)
            have hc2 := dgetIns_valuesP (fun v : Int => 0 ≤ v)
              (dgetIns st.cap (⟨d.grp, d.typ, d.college, d.course⟩ : BKey) []).1
              sc 0 hc1.1 (le_refl 0)
            intro b hb
            refine dset_valuesP
              (fun inner : List (Str × Int) => ∀ e ∈ inner, (0 : Int) ≤ e.2)
              _ _ _ ?_ ?_ b hb
            · exact dset_valuesP
                (fun inner : List (Str × Int) => ∀ e ∈ inner, (0 : Int) ≤ e.2)
                _ _ _ hc1.2 hc2.2
            · refine dset_valuesP (fun v : Int => 0 ≤ v) _ _ _ hc2.2 ?_
              rw [hfst]
              have := hspec.2.1
              omega
          · intro x hx
            exact List.mem_cons_of_mem _ hx
          · intro e he
            rcases List.mem_append.mp he with h2 | h2
            · exact Or.inl h2
            · rcases List.mem_singleton.mp h2 with rfl
              exact Or.inr hnew

theorem llmTrySM_clog (C : LCand) (base : BKey) (op : LOpt) (st : LlmSt) :
    (llmTrySM C base op st).2.clog = st.clog := by
  unfold llmTrySM
  split <;> rfl

theorem llmTryCat_clog (C : LCand) (base : BKey) (op : LOpt) (st : LlmSt) :
    (llmTryCat C base op st).2.clog = st.clog := by
  unfold llmTryCat
  split
  · rfl
  · rw [llmTrySM_clog]
    rfl

theorem llmTrySeat_clog (C : LCand) (d : LSel) (op : LOpt) (st : LlmSt) :
    (llmTrySeat C d op st).2.clog = st.clog := by
  unfold llmTrySeat
  split
  · simp only []
    split
    · rfl
    · rw [llmTryCat_clog]
      rfl
  · simp only []
    rw [llmTryCat_clog]

theorem llmTryOp_clog (C : LCand) :
    ∀ (ops : List LOpt) (st : LlmSt), (llmTryOp C ops st).clog = st.clog := by
  intro ops
  induction ops with
  | nil => intro st; rfl
  | cons op rest ih =>
    intro st
    simp only [llmTryOp]
    cases hdec : llmDecodeOpt op.optn with
    | none =>
      simp only []
      exact ih st
    | some d =>
      simp only []
      rcases hs : llmTrySeat C d op st with ⟨b, st'⟩
      have h2 : st'.clog = st.clog := by
        have h3 := llmTrySeat_clog C d op st
        rw [hs] at h3
        exact h3
      cases b
      · rw [ih st', h2]
      · exact h2

theorem llmP1Step_clog (phase : Nat) (opts : List LOpt) (st : LlmSt)
    (C : LCand) : (llmP1Step phase opts st C).clog = st.clog := by
  unfold llmP1Step
  split
  · rfl
  · exact llmTryOp_clog C _ st

theorem llmP2Fold_props (opts : List LOpt) :
    ∀ (l : List LCand) (st : LlmSt), innerND st.cap →
      l.foldl (llmP2Step opts) (some st) ≠ none ∧
      ∀ st', l.foldl (llmP2Step opts) (some st) = some st' →
        innerND st'.cap ∧ (capNN st.cap → capNN st'.cap) ∧
        (∀ e ∈ st'.clog, e ∈ st.clog ∨ e.fromSeat ≠ ['E', 'W']) := by
  intro l
  induction l with
  | nil =>
    intro st hnd
    refine ⟨by simp, ?_⟩
    intro st' h
    simp only [List.foldl_nil, Option.some.injEq] at h
    rw [← h]
    exact ⟨hnd, fun x => x, fun e he => Or.inl he⟩
  | cons C rest ih =>
    intro st hnd
    simp only [List.foldl_cons, llmP2Step]
    split
    · exact ih st hnd
    · cases hct : llmConvTry C (opts.filter (fun o => o.roll = C.roll)) st with
      | none => exact absurd hct (llmConvTry_props C _ st hnd).1
      | some st1 =>
        have hprops := (llmConvTry_props C _ st hnd).2 st1 hct
        rcases ih st1 hprops.1 with ⟨hne, hrest⟩
        refine ⟨hne, ?_⟩
        intro st' h
        rcases hrest st' h with ⟨r1, r2, r3⟩
        refine ⟨r1, fun hc => r2 (hprops.2.1 hc), ?_⟩
        intro e he
        rcases r3 e he with h2 | h2
        · rcases hprops.2.2.2 e h2 with h3 | h3
          · exact Or.inl h3
          · exact Or.inr h3
        · exact Or.inr h2

theorem llm_allotment_props (phase : Nat) (cands : List LCand)
    (opts : List LOpt) (seats : List BSeat) :
    llm_allotment phase cands opts seats ≠ none ∧
    (∀ e ∈ llmClog (llm_allotment phase cands opts seats),
      e.fromSeat ≠ ['E', 'W']) ∧
    ((∀ r ∈ seats, 0 ≤ r.seat) →
      llmCapNN (llm_allotment phase cands opts seats)) := by
  have hnd1 : innerND ((llmCands cands).foldl (llmP1Step phase (llmOpts opts))
      ⟨llmSeatCap seats, [], [], []⟩).cap := by
    refine foldl_inv (P := fun (st : LlmSt) => innerND st.cap) _ ?_
      (llmCands cands) _ (llmSeatCap_nd seats)
    intro s a hs
    exact llmP1Step_nd phase (llmOpts opts) s a hs
  have hclog1 : ((llmCands cands).foldl (llmP1Step phase (llmOpts opts))
      ⟨llmSeatCap seats, [], [], []⟩).clog = [] := by
    refine foldl_inv (P := fun (st : LlmSt) => st.clog = []) _ ?_
      (llmCands cands) _ rfl
    intro s a hs
    rw [llmP1Step_clog, hs]
  have hnn1 : (∀ r ∈ seats, 0 ≤ r.seat) →
      capNN ((llmCands cands).foldl (llmP1Step phase (llmOpts opts))
        ⟨llmSeatCap seats, [], [], []⟩).cap := by
    intro hseats
    refine foldl_inv (P := fun (st : LlmSt) => capNN st.cap) _ ?_
      (llmCands cands) _ (llmSeatCap_nn seats hseats)
    intro s a hs
    exact llmP1Step_nn phase (llmOpts opts) s a hs
  unfold llm_allotment
  by_cases hph : 3 ≤ phase
  · rw [if_pos hph]
    rcases llmP2Fold_props (llmOpts opts) (llmCands cands) _ hnd1 with ⟨hne, hrest⟩
    refine ⟨hne, ?_, ?_⟩
    · intro e he
      cases hres : (llmCands cands).foldl (llmP2Step (llmOpts opts))
          (some ((llmCands cands).foldl (llmP1Step phase (llmOpts opts))
            ⟨llmSeatCap seats, [], [], []⟩)) with
      | none => rw [hres] at he; simp [llmClog] at he
      | some st' =>
        rw [hres] at he
        simp only [llmClog] at he
        rcases (hrest st' hres).2.2 e he with h2 | h2
        · rw [hclog1] at h2
          simp at h2
        · exact h2
    · intro hseats
      cases hres : (llmCands cands).foldl (llmP2Step (llmOpts opts))
          (some ((llmCands cands).foldl (llmP1Step phase (llmOpts opts))
            ⟨llmSeatCap seats, [], [], []⟩)) with
      | none => simp [llmCapNN]
      | some st' =>
        simp only [llmCapNN]
        exact (hrest st' hres).2.1 (hnn1 hseats)
  · rw [if_neg hph]
    refine ⟨Option.noConfusion, ?_, ?_⟩
    · intro e he
      simp only [llmClog] at he
      rw [hclog1] at he
      simp at he
    · intro hseats
      simp only [llmCapNN]
      exact hnn1 hseats

/-- C7: in the llm_allotment.py conversion pass, (a) the two defensive
assertions never fire — a run never returns the failure marker; (b) no
conversion-log entry has the non-convertible `EW` category as its source
(`EW`'s chain is empty, so it is never converted; assignments carry only
the target category and never mention `EW` as a source); (c) with a
non-negative seat matrix no conversion (or allotment) step ever drives a
remaining count below zero. -/
theorem claim_C7 :
    (∀ (phase : Nat) (cands : List LCand) (opts : List LOpt)
      (seats : List BSeat), llm_allotment phase cands opts seats ≠ none) ∧
    (∀ (phase : Nat) (cands : List LCand) (opts : List LOpt)
      (seats : List BSeat),
      ∀ e ∈ llmClog (llm_allotment phase cands opts seats),
        e.fromSeat ≠ ['E', 'W']) ∧
    (∀ (phase : Nat) (cands : List LCand) (opts : List LOpt)
      (seats : List BSeat), (∀ r ∈ seats, 0 ≤ r.seat) →
      llmCapNN (llm_allotment phase cands opts seats)) :=
  ⟨fun phase cands opts seats => (llm_allotment_props phase cands opts seats).1,
   fun phase cands opts seats => (llm_allotment_props phase cands opts seats).2.1,
   fun phase cands opts seats => (llm_allotment_props phase cands opts seats).2.2⟩

/-- Concrete conversion scenario: an ST candidate, an EW seat and an SC
seat at the same base; pass 2 converts the SC seat (not the EW seat). -/
def lcC7 : LCand := ⟨2, 1, ['S', 'T'], [], [], []⟩

/-- Option of the conversion scenario. -/
def loC7 : List LOpt := [⟨2, 1, ['B', 'G', 'V', 'L', 'T', 'V', 'M'], ['Y'], []⟩]

/-- Seats of the conversion scenario. -/
def lsC7 : List BSeat :=
  [⟨['B'], ['G'], ['T', 'V', 'M'], ['V', 'L'], ['E', 'W'], 1⟩,
   ⟨['B'], ['G'], ['T', 'V', 'M'], ['V', 'L'], ['S', 'C'], 1⟩]

/-- C7, witness: the concrete phase-3 run performs an SC-to-ST conversion,
does not fail an assertion, its only log entry has a non-EW source, and
the remaining counts stay non-negative. -/
theorem claim_C7_witness :
    llm_allotment 3 [lcC7] loC7 lsC7 ≠ none ∧
    (⟨['T', 'V', 'M'], ['V', 'L'], ['S', 'C'], ['S', 'T'], 2⟩ : LConv) ∈
      llmClog (llm_allotment 3 [lcC7] loC7 lsC7) ∧
    (⟨['T', 'V', 'M'], ['V', 'L'], ['S', 'C'], ['S', 'T'], 2⟩ : LConv).fromSeat ≠
      ['E', 'W'] ∧
    llmCapNN (llm_allotment 3 [lcC7] loC7 lsC7) :=
  ⟨claim_C7.1 3 [lcC7] loC7 lsC7,
   by decide,
   claim_C7.2.1 3 [lcC7] loC7 lsC7 _ (by decide),
   claim_C7.2.2 3 [lcC7] loC7 lsC7 (by decide)⟩

/-- C1: with a non-negative seat matrix, every ledger entry stays
non-negative after any prefix of steps: in dnm.py across seeding,
previous-phase reduction and the allotment/upgrade loop, and in
llm_allotment.py across pass 1 and the conversion pass — every decrement
is guarded by a strict positivity check and releases only increment. -/
theorem claim_C1 :
    (∀ (phase : Phase) (cands : List DCand) (seats : List BSeat)
      (opts : List DOpt) (prev : List DPrev),
      (∀ r ∈ seats, 0 ≤ r.seat) → ∀ (n : Nat),
      ∀ p ∈ (dnmStateAfter phase cands seats opts prev n).m, 0 ≤ p.2) ∧
    (∀ (phase : Nat) (cands : List LCand) (opts : List LOpt)
      (seats : List BSeat), (∀ r ∈ seats, 0 ≤ r.seat) → ∀ (n : Nat),
      capNN (llmP1After phase cands opts seats n).cap ∧
      llmCapNN (llmP2After phase cands opts seats n)) := by
  constructor
  · intro phase cands seats opts prev hseats n
    unfold dnmStateAfter
    refine foldl_inv (P := fun (st : DnmSt) => ∀ p ∈ st.m, (0 : Int) ≤ p.2)
      _ ?_ ((dnmPool cands phase).take n) _ ?_
    · intro s a hs
      exact dnmStep_nonneg phase (seats.map cleanBSeat) (dnmOptsFilter opts)
        s a hs
    · exact dnmReduce_nonneg _ prev (bphSeatCap_nonneg seats hseats)
  · intro phase cands opts seats hseats n
    constructor
    · unfold llmP1After
      refine foldl_inv (P := fun (st : LlmSt) => capNN st.cap) _ ?_
        ((llmCands cands).take n) _ (llmSeatCap_nn seats hseats)
      intro s a hs
      exact llmP1Step_nn phase (llmOpts opts) s a hs
    · unfold llmP2After
      have hnd1 : innerND ((llmCands cands).foldl (llmP1Step phase (llmOpts opts))
          ⟨llmSeatCap seats, [], [], []⟩).cap := by
        refine foldl_inv (P := fun (st : LlmSt) => innerND st.cap) _ ?_
          (llmCands cands) _ (llmSeatCap_nd seats)
        intro s a hs
        exact llmP1Step_nd phase (llmOpts opts) s a hs
      have hnn1 : capNN ((llmCands cands).foldl (llmP1Step phase (llmOpts opts))
          ⟨llmSeatCap seats, [], [], []⟩).cap := by
        refine foldl_inv (P := fun (st : LlmSt) => capNN st.cap) _ ?_
          (llmCands cands) _ (llmSeatCap_nn seats hseats)
        intro s a hs
        exact llmP1Step_nn phase (llmOpts opts) s a hs
      rcases llmP2Fold_props (llmOpts opts) ((llmCands cands).take n) _ hnd1
        with ⟨hne, hrest⟩
      cases hres : ((llmCands cands).take n).foldl (llmP2Step (llmOpts opts))
          (some ((llmCands cands).foldl (llmP1Step phase (llmOpts opts))
            ⟨llmSeatCap seats, [], [], []⟩)) with
      | none => simp [llmCapNN]
      | some st' =>
        simp only [llmCapNN]
        exact (hrest st' hres).2.1 hnn1

/-- C1, witness: on the concrete conversion scenario every ledger entry is
non-negative after one step of each pass. -/
theorem claim_C1_witness :
    ((∀ r ∈ lsC7, (0 : Int) ≤ r.seat) ∧
      ∀ p ∈ (dnmStateAfter Phase.p1 [c6cand]
        [⟨['B'], ['G'], ['K', 'K', 'M'], ['V', 'L'], ['S', 'M'], 1⟩]
        [⟨1, 1, ['B', 'G', 'V', 'L', 'K', 'K', 'M'], ['Y'], []⟩] [] 1).m,
        (0 : Int) ≤ p.2) ∧
    (capNN (llmP1After 3 [lcC7] loC7 lsC7 1).cap ∧
      llmCapNN (llmP2After 3 [lcC7] loC7 lsC7 1)) :=
  ⟨⟨by decide, claim_C1.1 Phase.p1 [c6cand]
      [⟨['B'], ['G'], ['K', 'K', 'M'], ['V', 'L'], ['S', 'M'], 1⟩]
      [⟨1, 1, ['B', 'G', 'V', 'L', 'K', 'K', 'M'], ['Y'], []⟩] []
      (by decide) 1⟩,
    claim_C1.2 3 [lcC7] loC7 lsC7 (by decide) 1⟩

/-- bpharm_le.py option cleaning: keep rows with `RollNo > 0`, `OPNO > 0`,
`ValidOption.upper().strip() == "Y"` and `Delflg.upper().strip() != "Y"`,
sorted by (RollNo, OPNO). -/
def bphOptsFilter (opts : List BOpt) : List BOpt :=
  sortStable (fun a b => a.roll < b.roll || (a.roll = b.roll && a.opno ≤ b.opno))
    (opts.filter (fun o => 0 < o.roll ∧ 0 < o.opno ∧ pyNorm o.valid = ['Y'] ∧
      pyNorm o.delflg ≠ ['Y']))

/-- C8 (amended): the pre-matching option filters differ per module.
bpharm_le.py keeps exactly the options with positive RollNo and OPNO,
usable flag `Y` and no deletion flag; dnm.py keeps options with
`OPNO != 0` (negative OPNOs survive), flag `Y` and no deletion flag;
llm_allotment.py applies no validity, deletion or OPNO filter at all (see
the counterexample). -/
theorem claim_C8 :
    (∀ (opts : List BOpt), ∀ o ∈ bphOptsFilter opts,
      0 < o.roll ∧ 0 < o.opno ∧ pyNorm o.valid = ['Y'] ∧
        pyNorm o.delflg ≠ ['Y']) ∧
    (∀ (opts : List DOpt), ∀ o ∈ dnmOptsFilter opts,
      o.opno ≠ 0 ∧ pyUpper o.valid = ['Y'] ∧ pyUpper o.delflg ≠ ['Y']) := by
  constructor
  · intro opts o ho
    have h2 := mem_sortStable _ _ _ ho
    have h3 := (List.mem_filter.mp h2).2
    simpa using h3
  · intro opts o ho
    have h2 := mem_sortStable _ _ _ ho
    have h3 := (List.mem_filter.mp h2).2
    simpa using h3

/-- C8, counterexample: llm_allotment.py performs no option filtering —
an option row with `OPNO = 0`, `ValidOption = "N"` and `Delflg = "Y"`
reaches the reserve attempt and is allotted. -/
theorem claim_C8_cex :
    llmRecs (llm_allotment 1 [⟨1, 1, ['S', 'C'], [], [], []⟩]
      [⟨1, 0, ['B', 'G', 'V', 'L', 'K', 'K', 'M'], ['N'], ['Y']⟩]
      [⟨['B'], ['G'], ['K', 'K', 'M'], ['V', 'L'], ['S', 'M'], 1⟩]) =
    [⟨1, 1, ['K', 'K', 'M'], ['V', 'L'], ['S', 'M'], 0,
      ['B', 'G', 'K', 'K', 'M', 'V', 'L', 'S', 'M', 'S', 'M']⟩] := by
  decide

/-- C8, witness: the amended statement applied at concrete option rows
that survive the bpharm and dnm filters (the dnm row has a negative
OPNO). -/
theorem claim_C8_witness :
    (0 < (⟨1, 1, ['B', 'G', 'V', 'L', 'K', 'K', 'M'], ['Y'], ['N']⟩ : BOpt).roll ∧
      0 < (⟨1, 1, ['B', 'G', 'V', 'L', 'K', 'K', 'M'], ['Y'], ['N']⟩ : BOpt).opno ∧
      pyNorm (⟨1, 1, ['B', 'G', 'V', 'L', 'K', 'K', 'M'], ['Y'], ['N']⟩ : BOpt).valid =
        ['Y'] ∧
      pyNorm (⟨1, 1, ['B', 'G', 'V', 'L', 'K', 'K', 'M'], ['Y'], ['N']⟩ : BOpt).delflg ≠
        ['Y']) ∧
    ((⟨7, -2, ['B', 'G', 'V', 'L', 'K', 'K', 'M'], ['Y'], []⟩ : DOpt).opno ≠ 0 ∧
      pyUpper (⟨7, -2, ['B', 'G', 'V', 'L', 'K', 'K', 'M'], ['Y'], []⟩ : DOpt).valid =
        ['Y'] ∧
      pyUpper (⟨7, -2, ['B', 'G', 'V', 'L', 'K', 'K', 'M'], ['Y'], []⟩ : DOpt).delflg ≠
        ['Y']) :=
  ⟨claim_C8.1 [⟨1, 1, ['B', 'G', 'V', 'L', 'K', 'K', 'M'], ['Y'], ['N']⟩]
      (⟨1, 1, ['B', 'G', 'V', 'L', 'K', 'K', 'M'], ['Y'], ['N']⟩ : BOpt)
      (by decide),
   claim_C8.2 [⟨7, -2, ['B', 'G', 'V', 'L', 'K', 'K', 'M'], ['Y'], []⟩]
      (⟨7, -2, ['B', 'G', 'V', 'L', 'K', 'K', 'M'], ['Y'], []⟩ : DOpt)
      (by decide)⟩

/-! ## pgm.py — PG medical allotment with special rules

Candidate cleaning uppercases `Category`, `NRI`, `Minority`, `Special3`
and `Status` WITHOUT stripping; the pool keeps `PRank > 0` and
`Status != "S"` and sorts by `PRank`.  Seat cleaning and the two seat
indexes coincide with the bpharm ones (`bphSeatCap`, `bphBaseCats`): the
Python tuples put `course` before `college`, but both the build and every
lookup go through the same named `SKey`/`BKey` constructors, so the field
order inside the key is immaterial.  `seat_groups` is a `defaultdict(set)`
used only through membership tests, so the insertion-ordered list of
distinct categories of `addCat` is a faithful model. -/

/-- Candidate row of pgm.py after numeric coercion and uppercasing
(`RollNo`, `PRank`, `HQ_Rank`, `MQ_Rank`, `IQ_Rank`, `STRank` ints;
`Category`, `NRI`, `Minority`, `Special3`, `Status` uppercased, not
stripped). -/
structure PCand where
  roll : Int
  prank : Int
  hq : Int
  mq : Int
  iq : Int
  strank : Int
  category : Str
  nri : Str
  minority : Str
  special3 : Str
  status : Str
deriving DecidableEq, Repr

/-- Column cleaning of pgm.py candidates: `.astype(str).str.upper()` on
the five text columns (no strip). -/
def cleanPCand (c : PCand) : PCand :=
  ⟨c.roll, c.prank, c.hq, c.mq, c.iq, c.strank, pyUpper c.category,
    pyUpper c.nri, pyUpper c.minority, pyUpper c.special3, pyUpper c.status⟩

/-- Eligible candidate pool of pgm.py: clean, keep `PRank > 0` and
`Status != "S"`, sort by `PRank`. -/
def pgmPool (cands : List PCand) : List PCand :=
  sortStable (fun a b => a.prank ≤ b.prank)
    ((cands.map cleanPCand).filter (fun c => 0 < c.prank ∧ c.status ≠ ['S']))

/-- Option cleaning of pgm.py: keep `OPNO > 0`, upper(ValidOption) = "Y",
upper(Delflg) != "Y" (no strip on the flags), then upper-strip `Optn` and
sort by `(RollNo, OPNO)`. -/
def pgmOptsFilter (opts : List BOpt) : List BOpt :=
  sortStable (fun a b => a.roll < b.roll || (a.roll = b.roll && a.opno ≤ b.opno))
    ((opts.filter (fun o => 0 < o.opno ∧ pyUpper o.valid = ['Y'] ∧
        pyUpper o.delflg ≠ ['Y'])).map
      (fun o => ⟨o.roll, o.opno, pyNorm o.optn, o.valid, o.delflg⟩))

/-- pgm.py `eligible_category`: quota seats (HQ/MQ/IQ), SM and the special
seats (PD/CD/AC/MM/NR/NC) are generically open; an NA/NULL/blank candidate
cannot take a community seat; otherwise the seat category must equal the
candidate's. -/
def eligible_category (seat_cat cand_cat : Str) : Bool :=
  let s := pyNorm seat_cat
  let c0 := pyNorm cand_cat
  let c := if c0 = [] ∨ c0 = ['N', 'U', 'L', 'L'] ∨ c0 = ['N', 'A'] then
    ['N', 'A'] else c0
  if s = ['H', 'Q'] ∨ s = ['M', 'Q'] ∨ s = ['I', 'Q'] then true
  else if s = ['S', 'M'] then true
  else if s = ['P', 'D'] ∨ s = ['C', 'D'] ∨ s = ['A', 'C'] ∨ s = ['M', 'M'] ∨
      s = ['N', 'R'] ∨ s = ['N', 'C'] then true
  else if c = ['N', 'A'] then false
  else s = c

/-- pgm.py `passes_special_rules`: each special seat category imposes its
own condition on the option flag and the candidate's NRI / Minority /
Special3 / Category fields (all re-normalised inside); a seat category
matching none of the cases passes.  The source's sequence of independent
`if` blocks is an if-chain here: the normalised seat category equals at
most one of the six literals. -/
def passes_special_rules (seat_cat flag : Str) (c : PCand) : Bool :=
  let s := pyNorm seat_cat
  let f := pyNorm flag
  let nri := pyNorm c.nri
  let mino := pyNorm c.minority
  let sp3 := pyNorm c.special3
  let cat := pyNorm c.category
  if s = ['N', 'R'] ∧ ¬ (f = ['R'] ∧ nri = ['N', 'R']) then false
  else if s = ['N', 'C'] ∧ ¬ (f = ['R'] ∧ nri = ['N', 'R', 'N', 'C']) then false
  else if s = ['A', 'C'] ∧ ¬ (f = ['Y'] ∧ mino = ['A', 'C']) then false
  else if s = ['M', 'M'] ∧ ¬ (f = ['Y'] ∧ mino = ['M', 'M']) then false
  else if s = ['P', 'D'] ∧ ¬ sp3 = ['P', 'D'] then false
  else if s = ['C', 'D'] ∧ ¬ (cat = ['S', 'C'] ∧ sp3 = ['P', 'D']) then false
  else true

/-- Priority order of pgm.py for one option: the candidate's own community
(if not NA/NULL/blank and present in the base's categories), then HQ/MQ/IQ
gated by the quota ranks, then the special categories in the order
PD, CD, AC, MM, NR, NC (each gated by presence, non-duplication,
`eligible_category` and `passes_special_rules`), and SM last under the
same gates. -/
def pgmPriority (cats : List Str) (c : PCand) (flag : Str) : List Str :=
  let p1 := if ¬ (c.category = ['N', 'A'] ∨ c.category = ['N', 'U', 'L', 'L'] ∨
      c.category = []) ∧ c.category ∈ cats then [c.category] else []
  let p2 := p1 ++
    (if ['H', 'Q'] ∈ cats ∧ 0 < c.hq then [['H', 'Q']] else []) ++
    (if ['M', 'Q'] ∈ cats ∧ 0 < c.mq then [['M', 'Q']] else []) ++
    (if ['I', 'Q'] ∈ cats ∧ 0 < c.iq then [['I', 'Q']] else [])
  let p3 := [['P', 'D'], ['C', 'D'], ['A', 'C'], ['M', 'M'], ['N', 'R'],
      ['N', 'C']].foldl
    (fun pr sc =>
      if sc ∈ cats ∧ sc ∉ pr ∧ eligible_category sc c.category = true ∧
          passes_special_rules sc flag c = true
      then pr ++ [sc] else pr) p2
  if ['S', 'M'] ∈ cats ∧ ['S', 'M'] ∉ p3 ∧
      eligible_category ['S', 'M'] c.category = true ∧
      passes_special_rules ['S', 'M'] flag c = true
  then p3 ++ [['S', 'M']] else p3

/-- Inner choose loop of pgm.py: first priority category with a seat left
that passes the (repeated) eligibility and special-rule checks. -/
def pgmChoose (m : List (SKey × Int)) (c : PCand) (flag : Str) (base : BKey) :
    List Str → Option SKey
  | [] => none
  | sc :: rest =>
    let skey : SKey := ⟨base.grp, base.typ, base.college, base.course, sc⟩
    if dgetD m skey 0 ≤ 0 then pgmChoose m c flag base rest
    else if eligible_category sc c.category = false then
      pgmChoose m c flag base rest
    else if passes_special_rules sc flag c = false then
      pgmChoose m c flag base rest
    else some skey

/-- Output record of pgm.py (`RollNo`, `OPNO`, `AllotCode`, `College`,
`Course`, `SeatCategory`). -/
structure PRec where
  roll : Int
  opno : Int
  code : Str
  college : Str
  course : Str
  seatCat : Str
deriving DecidableEq, Repr

/-- State of the pgm.py allotment loop: the seat map and the accumulated
records. -/
structure PgmSt where
  m : List (SKey × Int)
  recs : List PRec
deriving DecidableEq, Repr

/-- Walk of one pgm.py candidate over their cleaned options: decode
(exactly 8 characters), map `prog` to the seat group `"PG" + prog`, skip
bases absent from `seat_groups`, and run the choose loop over the priority
list.  On a hit, return the chosen key and the output record (the allot
code is built from the decoded `prog`, not the `PG`-prefixed group). -/
def pgmWalk (groups : List (BKey × List Str)) (m : List (SKey × Int))
    (c : PCand) : List BOpt → Option (SKey × PRec)
  | [] => none
  | op :: rest =>
    match pgmDecodeOpt op.optn with
    | none => pgmWalk groups m c rest
    | some d =>
      let grp := ['P', 'G'] ++ d.prog
      let base : BKey := ⟨grp, d.typ, d.college, d.course⟩
      if dmem groups base = false then pgmWalk groups m c rest
      else
        let flag := pyUpper d.flag
        match pgmChoose m c flag base (pgmPriority (dgetD groups base []) c flag) with
        | some k =>
          some (k, ⟨c.roll, op.opno,
            pgmMakeAllotCode d.prog d.typ d.course d.college k.category,
            d.college, d.course, k.category⟩)
        | none => pgmWalk groups m c rest

/-- One candidate step of pgm.py: candidates without options are skipped
(`if not myopts: continue`); on a successful walk the chosen seat is
decremented and the record appended. -/
def pgmStep (groups : List (BKey × List Str)) (opts : List BOpt)
    (st : PgmSt) (c : PCand) : PgmSt :=
  if opts.filter (fun o => o.roll = c.roll) = [] then st
  else
    match pgmWalk groups st.m c (opts.filter (fun o => o.roll = c.roll)) with
    | none => st
    | some (k, r) => ⟨dset st.m k (dgetD st.m k 0 - 1), st.recs ++ [r]⟩

/-- pgm.py `pg_med_allotment`: seed the seat map and group index from the
cleaned seat matrix, then run the candidate loop over the pool. -/
def pg_med_allotment (cands : List PCand) (seats : List BSeat)
    (opts : List BOpt) : PgmSt :=
  (pgmPool cands).foldl (pgmStep (bphBaseCats seats) (pgmOptsFilter opts))
    ⟨bphSeatCap seats, []⟩

/-- A successful pgm.py walk returns a record carrying the candidate's
roll. -/
theorem pgmWalk_roll (groups : List (BKey × List Str)) (m : List (SKey × Int))
    (c : PCand) :
    ∀ (l : List BOpt) (k : SKey) (r : PRec),
      pgmWalk groups m c l = some (k, r) → r.roll = c.roll := by
  intro l
  induction l with
  | nil =>
    intro k r h
    exact Option.noConfusion h
  | cons op rest ih =>
    intro k r h
    unfold pgmWalk at h
    cases hd : pgmDecodeOpt op.optn with
    | none =>
      simp only [hd] at h
      exact ih k r h
    | some d =>
      simp only [hd] at h
      split at h
      · exact ih k r h
      · cases hc : pgmChoose m c (pyUpper d.flag)
            ⟨['P', 'G'] ++ d.prog, d.typ, d.college, d.course⟩
            (pgmPriority (dgetD groups
              ⟨['P', 'G'] ++ d.prog, d.typ, d.college, d.course⟩ []) c
              (pyUpper d.flag)) with
        | some k2 =>
          simp only [hc] at h
          cases h
          rfl
        | none =>
          simp only [hc] at h
          exact ih k r h

/-- Every record produced by one pgm.py step is an old record or carries
the stepped candidate's roll. -/
theorem pgmStep_recs (groups : List (BKey × List Str)) (opts : List BOpt)
    (st : PgmSt) (c : PCand) :
    ∀ rec ∈ (pgmStep groups opts st c).recs,
      rec ∈ st.recs ∨ rec.roll = c.roll := by
  unfold pgmStep
  split
  · intro rec hrec
    exact Or.inl hrec
  · cases hw : pgmWalk groups st.m c (opts.filter (fun o => o.roll = c.roll)) with
    | none =>
      intro rec hrec
      exact Or.inl hrec
    | some p =>
      obtain ⟨k, r⟩ := p
      intro rec hrec
      simp only [] at hrec
      rcases List.mem_append.mp hrec with h2 | h2
      · exact Or.inl h2
      · rcases List.mem_singleton.mp h2 with rfl
        exact Or.inr (pgmWalk_roll groups st.m c _ k rec hw)

/-- All output records of the pgm.py loop carry the roll of some pool
candidate. -/
theorem pgmFold_roll (groups : List (BKey × List Str)) (opts : List BOpt) :
    ∀ (l : List PCand) (st : PgmSt) (pool : List PCand),
      (∀ c ∈ l, c ∈ pool) →
      (∀ rec ∈ st.recs, ∃ c ∈ pool, rec.roll = c.roll) →
      ∀ rec ∈ (l.foldl (pgmStep groups opts) st).recs,
        ∃ c ∈ pool, rec.roll = c.roll := by
  intro l
  induction l with
  | nil => intro st pool _ hst; exact hst
  | cons a rest ih =>
    intro st pool hl hst
    refine ih (pgmStep groups opts st a) pool
      (fun c hc => hl c (List.mem_cons_of_mem _ hc)) ?_
    intro rec hrec
    rcases pgmStep_recs groups opts st a rec hrec with h2 | h2
    · exact hst rec h2
    · exact ⟨a, hl a (List.mem_cons_self _ _), h2⟩

/-- C6 (amended): neither dnm.py nor pgm.py emits a record per input
candidate — each output contains one record per allotted candidate only,
carrying the roll of some eligible-pool candidate; blocked, unallotted and
withdrawn candidates appear nowhere in either output (no exclusion records
exist). -/
theorem claim_C6 :
    (∀ (phase : Phase) (cands : List DCand) (seats : List BSeat)
      (opts : List DOpt) (prev : List DPrev),
      ∀ rec ∈ (dnm_allotment phase cands seats opts prev).recs,
        ∃ c ∈ dnmPool cands phase, rec.roll = c.roll) ∧
    (∀ (cands : List PCand) (seats : List BSeat) (opts : List BOpt),
      ∀ rec ∈ (pg_med_allotment cands seats opts).recs,
        ∃ c ∈ pgmPool cands, rec.roll = c.roll) :=
  ⟨fun phase cands seats opts prev =>
    dnmFold_roll phase (seats.map cleanBSeat) (dnmOptsFilter opts)
      (dnmPool cands phase) _ (dnmPool cands phase) (fun c hc => hc) (by simp),
   fun cands seats opts =>
    pgmFold_roll (bphBaseCats seats) (pgmOptsFilter opts)
      (pgmPool cands) _ (pgmPool cands) (fun c hc => hc) (by simp)⟩

/-- Candidate of the C6 pgm witness. -/
def pc6cand : PCand := ⟨1, 1, 0, 0, 0, 0, ['S', 'C'], [], [], [], []⟩

/-- C6, witness: the amended statement applied to a dnm.py run and a
pgm.py run that each allot their single candidate. -/
theorem claim_C6_witness :
    ((⟨Phase.p1, 1, 1, ['S', 'C'], ['B'], ['G'], ['K', 'K', 'M'], ['V', 'L'],
        ['S', 'M']⟩ : DRec) ∈
      (dnm_allotment Phase.p1 [c6cand]
        [⟨['B'], ['G'], ['K', 'K', 'M'], ['V', 'L'], ['S', 'M'], 1⟩]
        [⟨1, 1, ['B', 'G', 'V', 'L', 'K', 'K', 'M'], ['Y'], []⟩] []).recs ∧
      ∃ c ∈ dnmPool [c6cand] Phase.p1,
        (⟨Phase.p1, 1, 1, ['S', 'C'], ['B'], ['G'], ['K', 'K', 'M'], ['V', 'L'],
          ['S', 'M']⟩ : DRec).roll = c.roll) ∧
    ((⟨1, 1, ['M', 'G', 'V', 'L', 'K', 'K', 'M', 'S', 'M', 'S', 'M'],
        ['K', 'K', 'M'], ['V', 'L'], ['S', 'M']⟩ : PRec) ∈
      (pg_med_allotment [pc6cand]
        [⟨['P', 'G', 'M'], ['G'], ['K', 'K', 'M'], ['V', 'L'], ['S', 'M'], 1⟩]
        [⟨1, 1, ['M', 'G', 'V', 'L', 'K', 'K', 'M', 'N'], ['Y'], []⟩]).recs ∧
      ∃ c ∈ pgmPool [pc6cand],
        (⟨1, 1, ['M', 'G', 'V', 'L', 'K', 'K', 'M', 'S', 'M', 'S', 'M'],
          ['K', 'K', 'M'], ['V', 'L'], ['S', 'M']⟩ : PRec).roll = c.roll) :=
  ⟨⟨by decide, claim_C6.1 Phase.p1 [c6cand]
      [⟨['B'], ['G'], ['K', 'K', 'M'], ['V', 'L'], ['S', 'M'], 1⟩]
      [⟨1, 1, ['B', 'G', 'V', 'L', 'K', 'K', 'M'], ['Y'], []⟩] [] _ (by decide)⟩,
   ⟨by decide, claim_C6.2 [pc6cand]
      [⟨['P', 'G', 'M'], ['G'], ['K', 'K', 'M'], ['V', 'L'], ['S', 'M'], 1⟩]
      [⟨1, 1, ['M', 'G', 'V', 'L', 'K', 'K', 'M', 'N'], ['Y'], []⟩] _ (by decide)⟩⟩
